import Mathlib

/-!
Verification development for `alignment.py`: a Smith-Waterman style aligner
(`smith_waterman_alignment`) together with its three consumers
(`get_edit_type` / `align_and_calc_edit_types`, `padded_alignments`,
`calc_aligned_ngram_tuples`).

Modelling conventions:
* tokens are strings (`Tok`), scores are integers;
* Python's `-float("inf")` initial maximum is modelled as `none : Option Int`;
* crashes (`IndexError`, `AssertionError`, the explicit
  `RuntimeError("Unexpected result: Bug in code!!")`) are modelled by
  `Except.error`;
* the traceback `while` loop is modelled with explicit fuel
  (`ref_index + hyp_index + 1` steps suffice, since every iteration either
  breaks or strictly decreases `ref_index + hyp_index`);
* the Python code appends traceback records and reverses the list at the end;
  the model conses records onto the accumulator, which yields the same
  (reversed) final order.
-/

namespace alignment

abbrev Tok := String

/-- One element of the list returned by `smith_waterman_alignment`:
`(ref_word, hyp_word, ref_word_from_index, hyp_word_from_index,
ref_word_to_index, hyp_word_to_index)`. -/
structure SWPair where
  ref_word : Tok
  hyp_word : Tok
  ref_from : Nat
  hyp_from : Nat
  ref_to : Nat
  hyp_to : Nat
deriving DecidableEq, Repr

/-- The `Alignment` named tuple of `alignment.py`.  The padding records built
by `padded_alignments` carry `None` in the two `to` slots, hence `Option`. -/
structure Alignment where
  ref : Tok
  hyp : Tok
  refi_from : Nat
  hypi_from : Nat
  refi_to : Option Nat
  hypi_to : Option Nat
deriving DecidableEq, Repr

/-- The in-place update of one interior cell `(m+1, n+1)` of the score and
backpointer matrices: the substitution candidate (accepted with `> 0` in local
mode and `>= current` in full mode, where the current value is the row
initialisation `initV`), then the deletion candidate (strict `>`), then the
insertion candidate (strict `>`).  Returns the final `(H value, backpointer)`
of the cell; the backpointer coordinates are those stored by the Python code:
`(m, n)` diagonal, `(m, n+1)` deletion, `(m+1, n)` insertion, `(0, 0)` when
nothing was accepted over the initial fill. -/
def swCell (initV sub delc insc : Int) (m n : Nat) (full : Bool) :
    Int × Nat × Nat :=
  let c1 : Int × Nat × Nat :=
    if (full = false ∧ 0 < sub) ∨ (full = true ∧ initV ≤ sub) then (sub, m, n)
    else (initV, 0, 0)
  let c2 : Int × Nat × Nat :=
    if c1.1 < delc then (delc, m, n + 1) else c1
  let c3 : Int × Nat × Nat :=
    if c2.1 < insc then (insc, m + 1, n) else c2
  c3

/-- Row 0 of `(H, bp)`: in full-hypothesis mode `H[0][n] = H[0][n-1] + ins`
with backpointer `(0, n-1)`; in local mode all zeros with backpointer
`(0, 0)`. -/
def swRow0 (ins_score : Int) (full : Bool) : Nat → Int × Nat × Nat
  | 0 => (0, 0, 0)
  | n + 1 =>
    if full then ((swRow0 ins_score full n).1 + ins_score, 0, n)
    else (0, 0, 0)

/-- Row `m+1` of `(H, bp)` (cells are indexed by their column), computed from
the previous row `prev`.  Column 0 is `(0, (0, 0))` (the code sets
`H[ref_index][0] = 0` after the row fill, and `bp` is initialised to
`(0, 0)`); column `n+1` is the interior cell update using `ref[m]` and
`hyp[n]`. -/
def swRowNext (refL hypL : List Tok) (sim : Tok → Tok → Int)
    (del_score ins_score initV : Int) (full : Bool) (m : Nat)
    (prev : Nat → Int × Nat × Nat) : Nat → Int × Nat × Nat
  | 0 => (0, 0, 0)
  | n + 1 =>
    swCell initV
      ((prev n).1 + sim (refL.getD m "") (hypL.getD n ""))
      ((prev (n + 1)).1 + del_score)
      ((swRowNext refL hypL sim del_score ins_score initV full m prev n).1
        + ins_score)
      m n full

/-- The pair of matrices `(H, bp)` of `smith_waterman_alignment`, as a
function of the cell coordinates.  In full-hypothesis mode the interior cells
start from the row fill `-(hyp_len + 2)`; in local mode from `0`. -/
def swHB (refL hypL : List Tok) (sim : Tok → Tok → Int)
    (del_score ins_score : Int) (full : Bool) : Nat → Nat → Int × Nat × Nat
  | 0 => swRow0 ins_score full
  | m + 1 =>
    swRowNext refL hypL sim del_score ins_score
      (if full then -((hypL.length : Int) + 2) else 0) full m
      (swHB refL hypL sim del_score ins_score full m)

/-- The score matrix `H`. -/
def swH (refL hypL : List Tok) (sim : Tok → Tok → Int)
    (del_score ins_score : Int) (full : Bool) (m n : Nat) : Int :=
  (swHB refL hypL sim del_score ins_score full m n).1

/-- The backpointer matrix `bp`. -/
def swBP (refL hypL : List Tok) (sim : Tok → Tok → Int)
    (del_score ins_score : Int) (full : Bool) (m n : Nat) : Nat × Nat :=
  (swHB refL hypL sim del_score ins_score full m n).2

/-- `H[m][n] >= max_score` where `max_score` may be `-inf` (`none`). -/
def optLe (a : Option Int) (v : Int) : Bool :=
  match a with
  | none => true
  | some mx => decide (mx ≤ v)

/-- `score >= 0` for the local-mode loop condition (`-inf >= 0` is false). -/
def oge0 (a : Option Int) : Bool :=
  match a with
  | none => false
  | some v => decide (0 ≤ v)

/-- The maximum-tracking of the double loop: for `ref_index` in `1..ref_len`,
`hyp_index` in `1..hyp_len`, update `(max_score, max_score_element)` whenever
`(not align_full_hyp or hyp_index == hyp_len) and H[m][n] >= max_score`.
Starts from `(-inf, (0, 0))`. -/
def swMax (refL hypL : List Tok) (sim : Tok → Tok → Int)
    (del_score ins_score : Int) (full : Bool) : Option Int × Nat × Nat :=
  (List.range' 1 refL.length).foldl
    (fun acc m =>
      (List.range' 1 hypL.length).foldl
        (fun acc2 n =>
          if ((full = false ∨ n = hypL.length) ∧
              optLe acc2.1
                (swH refL hypL sim del_score ins_score full m n) = true) then
            (some (swH refL hypL sim del_score ins_score full m n), m, n)
          else acc2)
        acc)
    (none, 0, 0)

/-- The traceback loop of `smith_waterman_alignment`.  One fuel unit is spent
per iteration (the Python loop needs at most `ref_index + hyp_index + 1`
iterations, see `swLoop_ok_of_fuel`-style lemmas below); records are consed
onto `acc`, matching the final reversed order of the Python output. -/
def swLoop (refL hypL : List Tok) (sim : Tok → Tok → Int)
    (del_score ins_score : Int) (eps_symbol : Tok) (full : Bool) :
    Nat → Nat → Nat → Option Int → List SWPair →
    Except String (List SWPair × Option Int)
  | 0, _, _, _, _ => Except.error "Unexpected result: Bug in code!!"
  | fuel + 1, m, n, score, acc =>
    if (full = false ∧ oge0 score = true) ∨ (full = true ∧ 0 < n) then
      match swBP refL hypL sim del_score ins_score full m n with
      | (pm, pn) =>
        if (pm = m ∧ pn = n) ∨ (pm = 0 ∧ pn = 0) then
          -- base case: score = H[m][n]; emit one final pair if score != 0
          let s := swH refL hypL sim del_score ins_score full m n
          if s ≠ 0 then
            Except.ok
              (⟨if 0 < m then refL.getD (m - 1) "" else eps_symbol,
                if 0 < n then hypL.getD (n - 1) "" else eps_symbol,
                pm, pn, m, n⟩ :: acc,
               some (swH refL hypL sim del_score ins_score full pm pn))
          else Except.ok (acc, some s)
        else if m = pm + 1 ∧ n = pn + 1 then
          -- substitution or correct
          swLoop refL hypL sim del_score ins_score eps_symbol full fuel pm pn
            (some (swH refL hypL sim del_score ins_score full pm pn))
            (⟨if 0 < m then refL.getD (m - 1) "" else eps_symbol,
              if 0 < n then hypL.getD (n - 1) "" else eps_symbol,
              pm, pn, m, n⟩ :: acc)
        else if pn = n then
          -- deletion; the Python code asserts prev_ref_index == ref_index - 1
          if pm + 1 = m then
            swLoop refL hypL sim del_score ins_score eps_symbol full fuel pm pn
              (some (swH refL hypL sim del_score ins_score full pm pn))
              (⟨if 0 < m then refL.getD (m - 1) "" else eps_symbol,
                eps_symbol, pm, pn, m, n⟩ :: acc)
          else Except.error "Unexpected result: Bug in code!!"
        else if pm = m then
          -- insertion; the Python code asserts prev_hyp_index == hyp_index - 1
          if pn + 1 = n then
            swLoop refL hypL sim del_score ins_score eps_symbol full fuel pm pn
              (some (swH refL hypL sim del_score ins_score full pm pn))
              (⟨eps_symbol,
                if 0 < n then hypL.getD (n - 1) "" else eps_symbol,
                pm, pn, m, n⟩ :: acc)
          else Except.error "Unexpected result: Bug in code!!"
        else Except.error "Unexpected result: Bug in code!!"
    else Except.ok (acc, score)

/-- `smith_waterman_alignment(ref, hyp, sim, del_score, ins_score, eps_symbol,
align_full_hyp)`.  Returns the (already reversed) list of aligned pairs and
`max_score`; the final `assert (align_full_hyp or score == 0)` is modelled by
an `AssertionError`. -/
def smith_waterman_alignment (refL hypL : List Tok) (sim : Tok → Tok → Int)
    (del_score ins_score : Int) (eps_symbol : Tok) (align_full_hyp : Bool) :
    Except String (List SWPair × Option Int) :=
  match swLoop refL hypL sim del_score ins_score eps_symbol align_full_hyp
      ((swMax refL hypL sim del_score ins_score align_full_hyp).2.1 +
        (swMax refL hypL sim del_score ins_score align_full_hyp).2.2 + 1)
      (swMax refL hypL sim del_score ins_score align_full_hyp).2.1
      (swMax refL hypL sim del_score ins_score align_full_hyp).2.2
      (swMax refL hypL sim del_score ins_score align_full_hyp).1 [] with
  | Except.error e => Except.error e
  | Except.ok (output, finalScore) =>
    if align_full_hyp = false ∧ finalScore ≠ some 0 then
      Except.error "AssertionError"
    else Except.ok (output,
      (swMax refL hypL sim del_score ins_score align_full_hyp).1)

/-- The similarity function used by every in-repository caller of the
aligner: `lambda x, y: 2 if (x == y) else -1`. -/
def similarity_fixed : Tok → Tok → Int :=
  fun x y => if x = y then 2 else -1

/-- `get_edit_type(ref, hyp, eps)`. -/
def get_edit_type (r h : Tok) (eps : Tok) : String :=
  if r ≠ h ∧ ¬(r = eps ∨ h = eps) then "sub"
  else if r ≠ h ∧ r = eps then "ins"
  else if r ≠ h ∧ h = eps then "del"
  else "cor"

/-- `align_and_calc_edit_types(ref_tok, hyp_tok)`: full-hypothesis alignment
with the fixed scoring (match +2, mismatch/del/ins -1) and sentinel `"|"`,
then per-pair edit classification. -/
def align_and_calc_edit_types (ref_tok hyp_tok : List Tok) :
    Except String (List String) :=
  match smith_waterman_alignment ref_tok hyp_tok similarity_fixed
      (-1) (-1) "|" true with
  | Except.error e => Except.error e
  | Except.ok (output, _) =>
    Except.ok (output.map (fun p => get_edit_type p.ref_word p.hyp_word "|"))

/-- `Alignment(*o)` applied to a traceback tuple. -/
def Alignment.ofPair (p : SWPair) : Alignment :=
  ⟨p.ref_word, p.hyp_word, p.ref_from, p.hyp_from, some p.ref_to, some p.hyp_to⟩

/-- `padded_alignments(ref_tok, hyp_tok, eps)`: align in full-hypothesis mode
with the fixed scoring, then pad with synthetic deletion records
`Alignment(ref_tok[i], eps, i, 0, None, None)` for `i in range(0, start)` and
`Alignment(ref_tok[i], eps, i, len(hyp_tok), None, None)` for
`i in range(end+1, len(ref_tok))`, where `start`/`end` are the `refi_from` of
the first/last aligner record.  `alignments[0]` on an empty aligner output
raises `IndexError`. -/
def padded_alignments (ref_tok hyp_tok : List Tok) (eps : Tok) :
    Except String (List Alignment) :=
  match smith_waterman_alignment ref_tok hyp_tok similarity_fixed
      (-1) (-1) eps true with
  | Except.error e => Except.error e
  | Except.ok (output, _) =>
    match output.map Alignment.ofPair with
    | [] => Except.error "IndexError"
    | a0 :: rest =>
      let start := a0.refi_from
      let padding_left : List Alignment :=
        (List.range start).map
          (fun i => ⟨ref_tok.getD i "", eps, i, 0, none, none⟩)
      let e := (rest.getLastD a0).refi_from
      let padding_right : List Alignment :=
        (List.range' (e + 1) (ref_tok.length - (e + 1))).map
          (fun i => ⟨ref_tok.getD i "", eps, i, hyp_tok.length, none, none⟩)
      Except.ok (padding_left ++ (a0 :: rest) ++ padding_right)

/-- The `ri_to_alignment` grouping of `calc_aligned_ngram_tuples`: the bucket
of padded records with a given `refi_from` (a `defaultdict(list)` built by a
single in-order pass is just an in-order filter per key). -/
def ri_to_alignment (alignments : List Alignment) (i : Nat) : List Alignment :=
  alignments.filter (fun a => a.refi_from == i)

/-- One yield of `calc_aligned_ngram_tuples` for window start `k` and order
`o`: `ngram = [al for i in range(k, k+o) for al in ri_to_alignment[i]]`, then
`(hyp_tok[ngram[0].hypi_from : ngram[-1].hypi_from + 1],
ref_tok[ngram[0].refi_from : ngram[-1].refi_from + 1])`; `ngram[0]` on an
empty `ngram` raises `IndexError`. -/
def ngram_tuple (ref_tok hyp_tok : List Tok) (alignments : List Alignment)
    (k o : Nat) : Except String (List Tok × List Tok) :=
  match (List.range' k o).flatMap (ri_to_alignment alignments) with
  | [] => Except.error "IndexError"
  | b :: bs =>
    let lastA := bs.getLastD b
    Except.ok
      ((hyp_tok.drop b.hypi_from).take (lastA.hypi_from + 1 - b.hypi_from),
       (ref_tok.drop b.refi_from).take (lastA.refi_from + 1 - b.refi_from))

/-- Total version of `ngram_tuple` (the value it yields when the `ngram` list
is non-empty), used to state what `calc_aligned_ngram_tuples` produces. -/
def ngram_pair (ref_tok hyp_tok : List Tok) (alignments : List Alignment)
    (k o : Nat) : List Tok × List Tok :=
  match (List.range' k o).flatMap (ri_to_alignment alignments) with
  | [] => ([], [])
  | b :: bs =>
    let lastA := bs.getLastD b
    ((hyp_tok.drop b.hypi_from).take (lastA.hypi_from + 1 - b.hypi_from),
     (ref_tok.drop b.refi_from).take (lastA.refi_from + 1 - b.refi_from))

/-- `calc_aligned_ngram_tuples(ref_tok, hyp_tok, order)`: the generator
yields, for `o` in `1..order` and window start `k` in
`range(len(ref_tok) - (o - 1))`, the tuple `ngram_tuple k o`; the generator,
fully consumed, is modelled as the list of its yields (`IndexError` aborts).
The Python `assert all([len(v) > 0 for v in ri_to_alignment.values()])` is a
tautology (a `defaultdict(list)` key exists only after an append) and is not
modelled. -/
def calc_aligned_ngram_tuples (ref_tok hyp_tok : List Tok) (order : Nat) :
    Except String (List (List Tok × List Tok)) :=
  match padded_alignments ref_tok hyp_tok "|" with
  | Except.error e => Except.error e
  | Except.ok alignments =>
    ((List.range' 1 order).flatMap
        (fun o =>
          (List.range (ref_tok.length - (o - 1))).map (fun k => (o, k)))).mapM
      (fun p => ngram_tuple ref_tok hyp_tok alignments p.2 p.1)

/-! ### Generic list helpers -/

/-- Invariant preservation along a left fold. -/
theorem foldl_inv {α β : Type} {C : β → Prop} (l : List α) (f : β → α → β)
    (b : β) (hb : C b) (hstep : ∀ x, C x → ∀ a, a ∈ l → C (f x a)) :
    C (l.foldl f b) := by
  induction l generalizing b with
  | nil => exact hb
  | cons a t ih =>
    exact ih (f b a) (hstep b hb a (by simp))
      (fun x hx a' ha' => hstep x hx a' (by simp [ha']))

/-- A fold over elements that leave the accumulator unchanged is trivial. -/
theorem foldl_fixed {α β : Type} (l : List α) (f : β → α → β) (b : β)
    (h : ∀ x a, a ∈ l → f x a = x) : l.foldl f b = b := by
  induction l generalizing b with
  | nil => rfl
  | cons a t ih =>
    rw [List.foldl_cons, h b a (by simp)]
    exact ih b (fun x a' ha' => h x a' (by simp [ha']))

/-- `getLast?` commutes with `map`. -/
theorem getLast?_map {α β : Type} (l : List α) (f : α → β) :
    (l.map f).getLast? = l.getLast?.map f := by
  induction l with
  | nil => rfl
  | cons a t ih => cases t <;> simp_all

/-- A list whose `ref_from` values are chained with steps of at most one
contains every value between its first and its last element. -/
theorem chain_cover (x : Nat) (xs : List Nat)
    (hc : List.Chain' (fun a b => a ≤ b ∧ b ≤ a + 1) (x :: xs)) :
    ∀ i, x ≤ i → (∀ y, (x :: xs).getLast? = some y → i ≤ y) →
      i ∈ x :: xs := by
  induction xs generalizing x with
  | nil =>
    intro i hxi hy
    have := hy x (by simp)
    simp [Nat.le_antisymm this hxi]
  | cons z zs ih =>
    intro i hxi hy
    rcases Nat.eq_or_lt_of_le hxi with h | h
    · simp [h]
    · have hstep : x ≤ z ∧ z ≤ x + 1 := (List.chain'_cons.mp hc).1
      have hz : z ≤ i := by omega
      have := ih z (List.chain'_cons.mp hc).2 i hz
        (fun y hyy => hy y (by simpa using hyy))
      simp [this]

/-! ### Cell-level lemmas -/

theorem swCell_fst_full (iv sub delc insc : Int) (m n : Nat) :
    (swCell iv sub delc insc m n true).1 =
      max (max (max iv sub) delc) insc := by
  simp only [swCell]
  split <;> split <;> split <;> simp_all <;> omega

theorem swCell_local_nonneg (sub delc insc : Int) (m n : Nat) :
    0 ≤ (swCell 0 sub delc insc m n false).1 := by
  simp only [swCell]
  split <;> split <;> split <;> simp_all <;> omega

theorem swCell_bp_mem (iv sub delc insc : Int) (m n : Nat) (full : Bool) :
    (swCell iv sub delc insc m n full).2 = (m, n) ∨
    (swCell iv sub delc insc m n full).2 = (0, 0) ∨
    (swCell iv sub delc insc m n full).2 = (m, n + 1) ∨
    (swCell iv sub delc insc m n full).2 = (m + 1, n) := by
  simp only [swCell]
  split <;> split <;> split <;> simp_all

theorem swCell_full_sub_bp (iv sub delc insc : Int) (m n : Nat)
    (h : iv ≤ sub) :
    (swCell iv sub delc insc m n true).2 = (m, n) ∨
    (swCell iv sub delc insc m n true).2 = (m, n + 1) ∨
    (swCell iv sub delc insc m n true).2 = (m + 1, n) := by
  simp only [swCell]
  split <;> split <;> split <;> simp_all

theorem swCell_diag_eq (iv sub delc insc : Int) (m n : Nat)
    (h : iv ≤ sub) (hd : delc ≤ sub) (hi : insc ≤ sub) :
    swCell iv sub delc insc m n true = (sub, m, n) := by
  simp only [swCell]
  split <;> split <;> split <;> simp_all <;> omega

theorem swCell_fst_ge_ins (iv sub delc insc : Int) (m n : Nat) (full : Bool) :
    insc ≤ (swCell iv sub delc insc m n full).1 := by
  simp only [swCell]
  split <;> split <;> split <;> simp_all <;> omega

/-! ### Boundary and unfolding lemmas for the matrices -/

theorem swH_col0 (refL hypL : List Tok) (sim : Tok → Tok → Int)
    (dS iS : Int) (full : Bool) (m : Nat) :
    swH refL hypL sim dS iS full m 0 = 0 := by
  cases m <;> rfl

theorem swBP_col0 (refL hypL : List Tok) (sim : Tok → Tok → Int)
    (dS iS : Int) (full : Bool) (m : Nat) :
    swBP refL hypL sim dS iS full m 0 = (0, 0) := by
  cases m <;> rfl

theorem swH_row0_step (refL hypL : List Tok) (sim : Tok → Tok → Int)
    (dS iS : Int) (n : Nat) :
    swH refL hypL sim dS iS true 0 (n + 1) =
      swH refL hypL sim dS iS true 0 n + iS := by
  simp [swH, swHB, swRow0]

theorem swBP_row0 (refL hypL : List Tok) (sim : Tok → Tok → Int)
    (dS iS : Int) (n : Nat) :
    swBP refL hypL sim dS iS true 0 (n + 1) = (0, n) := by
  simp [swBP, swHB, swRow0]

theorem swBP_row0_local (refL hypL : List Tok) (sim : Tok → Tok → Int)
    (dS iS : Int) (n : Nat) :
    swBP refL hypL sim dS iS false 0 (n + 1) = (0, 0) := by
  simp [swBP, swHB, swRow0]

theorem swH_row0_fixed (refL hypL : List Tok) (sim : Tok → Tok → Int)
    (dS : Int) (n : Nat) :
    swH refL hypL sim dS (-1) true 0 n = -(n : Int) := by
  induction n with
  | zero => rfl
  | succ k ih => rw [swH_row0_step, ih]; push_cast; ring

theorem swHB_succ_succ (refL hypL : List Tok) (sim : Tok → Tok → Int)
    (dS iS : Int) (full : Bool) (m n : Nat) :
    swHB refL hypL sim dS iS full (m + 1) (n + 1) =
      swCell (if full then -((hypL.length : Int) + 2) else 0)
        (swH refL hypL sim dS iS full m n + sim (refL.getD m "") (hypL.getD n ""))
        (swH refL hypL sim dS iS full m (n + 1) + dS)
        (swH refL hypL sim dS iS full (m + 1) n + iS) m n full := by
  rfl

theorem swHB_succ_succ_full (refL hypL : List Tok) (sim : Tok → Tok → Int)
    (dS iS : Int) (m n : Nat) :
    swHB refL hypL sim dS iS true (m + 1) (n + 1) =
      swCell (-((hypL.length : Int) + 2))
        (swH refL hypL sim dS iS true m n + sim (refL.getD m "") (hypL.getD n ""))
        (swH refL hypL sim dS iS true m (n + 1) + dS)
        (swH refL hypL sim dS iS true (m + 1) n + iS) m n true := by
  rfl

theorem swHB_succ_succ_local (refL hypL : List Tok) (sim : Tok → Tok → Int)
    (dS iS : Int) (m n : Nat) :
    swHB refL hypL sim dS iS false (m + 1) (n + 1) =
      swCell 0
        (swH refL hypL sim dS iS false m n + sim (refL.getD m "") (hypL.getD n ""))
        (swH refL hypL sim dS iS false m (n + 1) + dS)
        (swH refL hypL sim dS iS false (m + 1) n + iS) m n false := by
  rfl

/-! ### Bounds on `H` under the repository's fixed scoring
(match +2, mismatch -1, `del_score = ins_score = -1`). -/

theorem similarity_fixed_cases (x y : Tok) :
    similarity_fixed x y = 2 ∨ similarity_fixed x y = -1 := by
  unfold similarity_fixed; split <;> simp

theorem similarity_fixed_le (x y : Tok) : similarity_fixed x y ≤ 2 := by
  rcases similarity_fixed_cases x y with h | h <;> omega

theorem similarity_fixed_ge (x y : Tok) : -1 ≤ similarity_fixed x y := by
  rcases similarity_fixed_cases x y with h | h <;> omega

theorem similarity_fixed_self (x : Tok) : similarity_fixed x x = 2 := by
  simp [similarity_fixed]

/-- With `ins_score = -1`, every cell of `H` is at least `-n` (full mode,
any similarity function, any deletion score). -/
theorem swH_fixed_lb (refL hypL : List Tok) (sim : Tok → Tok → Int)
    (dS : Int) : ∀ m n : Nat, -(n : Int) ≤ swH refL hypL sim dS (-1) true m n := by
  intro m
  induction m with
  | zero => intro n; rw [swH_row0_fixed]
  | succ k ih =>
    intro n
    induction n with
    | zero => rw [swH_col0]; simp
    | succ j ihn =>
      have hcell := swHB_succ_succ_full refL hypL sim dS (-1) k j
      have := swCell_fst_ge_ins (-((hypL.length : Int) + 2))
        (swH refL hypL sim dS (-1) true k j + sim (refL.getD k "") (hypL.getD j ""))
        (swH refL hypL sim dS (-1) true k (j + 1) + dS)
        (swH refL hypL sim dS (-1) true (k + 1) j + (-1)) k j true
      rw [← hcell] at this
      have h2 := ihn
      unfold swH at this h2 ⊢
      push_cast at *
      omega

/-- Under the fixed scoring, in the columns the algorithm actually builds,
the substitution candidate always beats the interior initial fill, hence the
interior backpointer is one of the three real moves. -/
theorem swBP_fixed_shape (refL hypL : List Tok) (m n : Nat)
    (hn : n ≤ hypL.length + 1) :
    swBP refL hypL similarity_fixed (-1) (-1) true (m + 1) (n + 1) = (m, n) ∨
    swBP refL hypL similarity_fixed (-1) (-1) true (m + 1) (n + 1) = (m, n + 1) ∨
    swBP refL hypL similarity_fixed (-1) (-1) true (m + 1) (n + 1) = (m + 1, n) := by
  have hlb := swH_fixed_lb refL hypL similarity_fixed (-1) m n
  have hsim := similarity_fixed_ge (refL.getD m "") (hypL.getD n "")
  have hn' : (n : Int) ≤ (hypL.length : Int) + 1 := by exact_mod_cast hn
  have hsub : -((hypL.length : Int) + 2) ≤
      swH refL hypL similarity_fixed (-1) (-1) true m n +
        similarity_fixed (refL.getD m "") (hypL.getD n "") := by
    omega
  have hbp := swCell_full_sub_bp
    (-((hypL.length : Int) + 2))
    (swH refL hypL similarity_fixed (-1) (-1) true m n +
      similarity_fixed (refL.getD m "") (hypL.getD n ""))
    (swH refL hypL similarity_fixed (-1) (-1) true m (n + 1) + (-1))
    (swH refL hypL similarity_fixed (-1) (-1) true (m + 1) n + (-1))
    m n hsub
  rw [← swHB_succ_succ_full refL hypL similarity_fixed (-1) (-1) m n] at hbp
  exact hbp

/-- In the columns the algorithm actually builds, the fixed-scoring `H` at an
interior cell is the maximum of the three move candidates. -/
theorem swH_fixed_max (refL hypL : List Tok) (m n : Nat)
    (hn : n ≤ hypL.length + 1) :
    swH refL hypL similarity_fixed (-1) (-1) true (m + 1) (n + 1) =
      max (max (swH refL hypL similarity_fixed (-1) (-1) true m n +
          similarity_fixed (refL.getD m "") (hypL.getD n ""))
        (swH refL hypL similarity_fixed (-1) (-1) true m (n + 1) - 1))
        (swH refL hypL similarity_fixed (-1) (-1) true (m + 1) n - 1) := by
  have hlb := swH_fixed_lb refL hypL similarity_fixed (-1) m n
  have hsim := similarity_fixed_ge (refL.getD m "") (hypL.getD n "")
  have hcell := congrArg Prod.fst
    (swHB_succ_succ_full refL hypL similarity_fixed (-1) (-1) m n)
  rw [swCell_fst_full] at hcell
  have hn' : (n : Int) ≤ (hypL.length : Int) + 1 := by exact_mod_cast hn
  unfold swH at hcell hlb ⊢
  rw [hcell]
  simp only [max_def]
  split_ifs <;> omega

/-- Upper bound on the fixed-scoring `H`: with restarts allowed at every
`(k, 0)`, a cell `(m, n)` can score at most `2n` when `m ≥ n` and at most
`3m - n` otherwise. -/
def Bnd (m n : Nat) : Int := if n ≤ m then 2 * n else 3 * m - n

theorem swH_fixed_ub (refL hypL : List Tok) :
    ∀ m n, n ≤ hypL.length →
      swH refL hypL similarity_fixed (-1) (-1) true m n ≤ Bnd m n := by
  intro m
  induction m with
  | zero =>
    intro n _
    rw [swH_row0_fixed]
    unfold Bnd
    split <;> omega
  | succ k ih =>
    intro n
    induction n with
    | zero => intro _; rw [swH_col0]; unfold Bnd; simp
    | succ j ihn =>
      intro hj
      have h1 := ih j (by omega)
      have h2 := ih (j + 1) hj
      have h3 := ihn (by omega)
      have hsim := similarity_fixed_le (refL.getD k "") (hypL.getD j "")
      have hmax := swH_fixed_max refL hypL k j (by omega)
      have hjY : (j : Int) + 1 ≤ (hypL.length : Int) := by exact_mod_cast hj
      unfold Bnd at h1 h2 h3 ⊢
      rw [hmax]
      split at h1 <;> split at h2 <;> split at h3 <;> split <;>
        push_cast at * <;> omega

/-! ### Identical sequences align along the diagonal -/

theorem swHB_diag (refL : List Tok) :
    ∀ m, 1 ≤ m → m ≤ refL.length →
      swHB refL refL similarity_fixed (-1) (-1) true m m =
        (2 * (m : Int), m - 1, m - 1) := by
  intro m
  induction m with
  | zero => omega
  | succ k ih =>
    intro _ hk
    rcases Nat.eq_zero_or_pos k with hk0 | hkpos
    · subst hk0
      have h00 : swH refL refL similarity_fixed (-1) (-1) true 0 0 = 0 := by
        rw [swH_row0_fixed]; simp
      have h01 : swH refL refL similarity_fixed (-1) (-1) true 0 1 = -1 := by
        rw [swH_row0_fixed]; simp
      have h10 : swH refL refL similarity_fixed (-1) (-1) true 1 0 = 0 :=
        swH_col0 ..
      rw [swHB_succ_succ_full, h00, h01, h10, similarity_fixed_self]
      rw [swCell_diag_eq _ _ _ _ _ _ (by omega) (by omega) (by omega)]
      norm_num
    · have hdiag := ih hkpos (by omega)
      have hH : swH refL refL similarity_fixed (-1) (-1) true k k =
          2 * (k : Int) := by
        unfold swH; rw [hdiag]
      have hub1 := swH_fixed_ub refL refL k (k + 1) hk
      have hub2 := swH_fixed_ub refL refL (k + 1) k (by omega)
      unfold Bnd at hub1 hub2
      rw [if_neg (by omega)] at hub1
      rw [if_pos (by omega)] at hub2
      rw [swHB_succ_succ_full, hH, similarity_fixed_self]
      rw [swCell_diag_eq _ _ _ _ _ _ (by push_cast at *; omega)
        (by push_cast at *; omega) (by push_cast at *; omega)]
      push_cast
      constructor <;> norm_num

/-! ### Characterising the maximum search -/

/-- Pointwise-equal step functions fold identically. -/
theorem foldl_ext {α β : Type} (l : List α) (f g : β → α → β) (b : β)
    (h : ∀ x a, a ∈ l → f x a = g x a) : l.foldl f b = l.foldl g b := by
  induction l generalizing b with
  | nil => rfl
  | cons a t ih =>
    rw [List.foldl_cons, List.foldl_cons, h b a (by simp)]
    exact ih (g b a) (fun x a' ha' => h x a' (by simp [ha']))

/-- In full-hypothesis mode, one row of the maximum search only looks at the
last column: it updates the running maximum with `H[m][hyp_len]` iff that
value is at least the current maximum. -/
theorem swMax_inner_full (refL hypL : List Tok) (sim : Tok → Tok → Int)
    (dS iS : Int) (m : Nat) (hY : hypL ≠ [])
    (acc : Option Int × Nat × Nat) :
    (List.range' 1 hypL.length).foldl
      (fun acc2 n =>
        if ((true = false ∨ n = hypL.length) ∧
            optLe acc2.1 (swH refL hypL sim dS iS true m n) = true) then
          (some (swH refL hypL sim dS iS true m n), m, n)
        else acc2) acc =
    if optLe acc.1 (swH refL hypL sim dS iS true m hypL.length) = true then
      (some (swH refL hypL sim dS iS true m hypL.length), m, hypL.length)
    else acc := by
  obtain ⟨L, hL⟩ : ∃ L, hypL.length = L + 1 :=
    ⟨hypL.length - 1, by
      have := List.length_pos.mpr hY
      omega⟩
  rw [hL]
  have hpre : (List.range' 1 L).foldl
      (fun acc2 n =>
        if ((true = false ∨ n = L + 1) ∧
            optLe acc2.1 (swH refL hypL sim dS iS true m n) = true) then
          (some (swH refL hypL sim dS iS true m n), m, n)
        else acc2) acc = acc := by
    apply foldl_fixed
    intro x a ha
    rw [List.mem_range'_1] at ha
    rw [if_neg]
    rintro ⟨hor, -⟩
    rcases hor with h | h
    · exact absurd h (by simp)
    · omega
  rw [List.range'_concat, List.foldl_append, hpre, List.foldl_cons,
    List.foldl_nil]
  have h1 : (1 + 1 * L) = L + 1 := by omega
  rw [h1]
  by_cases hcond : optLe acc.1 (swH refL hypL sim dS iS true m (L + 1)) = true
  · rw [if_pos ⟨Or.inr rfl, hcond⟩, if_pos hcond]
  · rw [if_neg (fun h => hcond h.2), if_neg hcond]

/-- In full-hypothesis mode with non-empty inputs, the maximum search ends on
some row `M ∈ [1, ref_len]` in the last column, with value `H[M][hyp_len]`. -/
theorem swMax_full (refL hypL : List Tok) (sim : Tok → Tok → Int)
    (dS iS : Int) (hR : refL ≠ []) (hY : hypL ≠ []) :
    ∃ M, 1 ≤ M ∧ M ≤ refL.length ∧
      swMax refL hypL sim dS iS true =
        (some (swH refL hypL sim dS iS true M hypL.length), M, hypL.length) := by
  unfold swMax
  rw [foldl_ext _ _
    (fun acc m =>
      if optLe acc.1 (swH refL hypL sim dS iS true m hypL.length) = true then
        (some (swH refL hypL sim dS iS true m hypL.length), m, hypL.length)
      else acc)
    _ (fun x a _ => swMax_inner_full refL hypL sim dS iS a hY x)]
  obtain ⟨K, hK⟩ : ∃ K, refL.length = K + 1 :=
    ⟨refL.length - 1, by
      have := List.length_pos.mpr hR
      omega⟩
  rw [hK, List.range'_succ, List.foldl_cons]
  rw [if_pos (by simp [optLe])]
  have hmain : ∀ (l : List Nat) (acc : Option Int × Nat × Nat),
      (∀ a, a ∈ l → 1 ≤ a ∧ a ≤ K + 1) →
      (∃ M, 1 ≤ M ∧ M ≤ K + 1 ∧
        acc = (some (swH refL hypL sim dS iS true M hypL.length), M,
          hypL.length)) →
      ∃ M, 1 ≤ M ∧ M ≤ K + 1 ∧
        l.foldl
          (fun acc m =>
            if optLe acc.1 (swH refL hypL sim dS iS true m hypL.length) = true
            then (some (swH refL hypL sim dS iS true m hypL.length), m,
              hypL.length)
            else acc) acc =
          (some (swH refL hypL sim dS iS true M hypL.length), M,
            hypL.length) := by
    intro l
    induction l with
    | nil => intro acc _ h; simpa using h
    | cons a t ih =>
      intro acc hmem h
      rw [List.foldl_cons]
      apply ih _ (fun x hx => hmem x (by simp [hx]))
      by_cases hc :
          optLe acc.1 (swH refL hypL sim dS iS true a hypL.length) = true
      · rw [if_pos hc]
        exact ⟨a, (hmem a (by simp)).1, (hmem a (by simp)).2, rfl⟩
      · rw [if_neg hc]; exact h
  have := hmain (List.range' 2 K)
    (some (swH refL hypL sim dS iS true 1 hypL.length), 1, hypL.length)
    (by intro a ha; rw [List.mem_range'_1] at ha; omega)
    ⟨1, le_refl 1, by omega, rfl⟩
  simpa using this

/-- The generic invariant of the maximum search: the result is either the
untouched initial state or `(some H[a][b], a, b)` for an in-range cell
`(a, b)` (with `b = hyp_len` in full-hypothesis mode). -/
theorem swMax_inv (refL hypL : List Tok) (sim : Tok → Tok → Int)
    (dS iS : Int) (full : Bool) :
    swMax refL hypL sim dS iS full = (none, 0, 0) ∨
    ∃ a b, 1 ≤ a ∧ a ≤ refL.length ∧ 1 ≤ b ∧ b ≤ hypL.length ∧
      swMax refL hypL sim dS iS full =
        (some (swH refL hypL sim dS iS full a b), a, b) ∧
      (full = true → b = hypL.length) := by
  unfold swMax
  apply foldl_inv (C := fun acc => acc = (none, 0, 0) ∨
    ∃ a b, 1 ≤ a ∧ a ≤ refL.length ∧ 1 ≤ b ∧ b ≤ hypL.length ∧
      acc = (some (swH refL hypL sim dS iS full a b), a, b) ∧
      (full = true → b = hypL.length))
  · exact Or.inl rfl
  · intro x hx m hm
    rw [List.mem_range'_1] at hm
    apply foldl_inv (C := fun acc => acc = (none, 0, 0) ∨
      ∃ a b, 1 ≤ a ∧ a ≤ refL.length ∧ 1 ≤ b ∧ b ≤ hypL.length ∧
        acc = (some (swH refL hypL sim dS iS full a b), a, b) ∧
        (full = true → b = hypL.length))
    · exact hx
    · intro x2 hx2 n hn
      rw [List.mem_range'_1] at hn
      by_cases hc : ((full = false ∨ n = hypL.length) ∧
          optLe x2.1 (swH refL hypL sim dS iS full m n) = true)
      · rw [if_pos hc]
        refine Or.inr ⟨m, n, by omega, by omega, by omega, by omega, rfl, ?_⟩
        intro hfull
        rcases hc.1 with h | h
        · rw [hfull] at h; exact absurd h (by simp)
        · exact h
      · rw [if_neg hc]; exact hx2

/-- In local mode with non-empty inputs, the maximum search ends on some
in-range cell with its `H` value (cell `(1,1)` always updates the `-inf`
start). -/
theorem swMax_local (refL hypL : List Tok) (sim : Tok → Tok → Int)
    (dS iS : Int) (hR : refL ≠ []) (hY : hypL ≠ []) :
    ∃ a b, 1 ≤ a ∧ a ≤ refL.length ∧ 1 ≤ b ∧ b ≤ hypL.length ∧
      swMax refL hypL sim dS iS false =
        (some (swH refL hypL sim dS iS false a b), a, b) := by
  have hinv := swMax_inv refL hypL sim dS iS false
  rcases hinv with h | h
  · exfalso
    -- the very first inner step replaces the `-inf` start, and no step ever
    -- restores it, so the result cannot be the initial state
    have hne : (swMax refL hypL sim dS iS false).1 ≠ none := by
      unfold swMax
      obtain ⟨K, hK⟩ : ∃ K, refL.length = K + 1 :=
        ⟨refL.length - 1, by have := List.length_pos.mpr hR; omega⟩
      obtain ⟨L, hL⟩ : ∃ L, hypL.length = L + 1 :=
        ⟨hypL.length - 1, by have := List.length_pos.mpr hY; omega⟩
      rw [hK, List.range'_succ, List.foldl_cons]
      have hstep : ∀ (l : List Nat) (acc : Option Int × Nat × Nat),
          acc.1 ≠ none →
          (l.foldl
            (fun acc2 n =>
              if ((false = false ∨ n = hypL.length) ∧
                  optLe acc2.1 (swH refL hypL sim dS iS false 1 n) = true) then
                (some (swH refL hypL sim dS iS false 1 n), 1, n)
              else acc2) acc).1 ≠ none := by
        intro l
        induction l with
        | nil => intro acc h; exact h
        | cons a t ih =>
          intro acc h
          rw [List.foldl_cons]
          apply ih
          split
          · simp
          · exact h
      have hout : ∀ (l : List Nat) (acc : Option Int × Nat × Nat),
          acc.1 ≠ none →
          (l.foldl
            (fun acc m =>
              (List.range' 1 hypL.length).foldl
                (fun acc2 n =>
                  if ((false = false ∨ n = hypL.length) ∧
                      optLe acc2.1 (swH refL hypL sim dS iS false m n) = true)
                  then (some (swH refL hypL sim dS iS false m n), m, n)
                  else acc2) acc) acc).1 ≠ none := by
        intro l
        induction l with
        | nil => intro acc h; exact h
        | cons a t ih =>
          intro acc h
          rw [List.foldl_cons]
          apply ih
          have : ∀ (l2 : List Nat) (acc2 : Option Int × Nat × Nat),
              acc2.1 ≠ none →
              (l2.foldl
                (fun acc2 n =>
                  if ((false = false ∨ n = hypL.length) ∧
                      optLe acc2.1 (swH refL hypL sim dS iS false a n) = true)
                  then (some (swH refL hypL sim dS iS false a n), a, n)
                  else acc2) acc2).1 ≠ none := by
            intro l2
            induction l2 with
            | nil => intro acc2 h2; exact h2
            | cons a2 t2 ih2 =>
              intro acc2 h2
              rw [List.foldl_cons]
              apply ih2
              split
              · simp
              · exact h2
          exact this _ acc h
      apply hout
      -- the first inner fold starts from `(none, 0, 0)` and updates at `n = 1`
      rw [show List.range' 1 hypL.length = 1 :: List.range' 2 L from by
        rw [hL, List.range'_succ]]
      rw [List.foldl_cons]
      rw [if_pos ⟨Or.inl rfl, by simp [optLe]⟩]
      apply hstep
      simp
    rw [h] at hne
    exact hne rfl
  · obtain ⟨a, b, h1, h2, h3, h4, h5, -⟩ := h
    exact ⟨a, b, h1, h2, h3, h4, h5⟩

/-- If either input is empty, the maximum search never runs. -/
theorem swMax_empty (refL hypL : List Tok) (sim : Tok → Tok → Int)
    (dS iS : Int) (full : Bool) (h : refL = [] ∨ hypL = []) :
    swMax refL hypL sim dS iS full = (none, 0, 0) := by
  unfold swMax
  rcases h with h | h
  · rw [h]; rfl
  · rw [h]
    apply foldl_fixed
    intro x a _
    simp

/-! ### Step lemmas for the traceback loop -/

theorem swLoop_exit (refL hypL : List Tok) (sim : Tok → Tok → Int)
    (dS iS : Int) (eps : Tok) (full : Bool) (fuel m n : Nat)
    (s : Option Int) (acc : List SWPair)
    (h : ¬((full = false ∧ oge0 s = true) ∨ (full = true ∧ 0 < n))) :
    swLoop refL hypL sim dS iS eps full (fuel + 1) m n s acc =
      Except.ok (acc, s) := by
  rw [swLoop, if_neg h]

theorem swLoop_base (refL hypL : List Tok) (sim : Tok → Tok → Int)
    (dS iS : Int) (eps : Tok) (full : Bool) (fuel m n pm pn : Nat)
    (s : Option Int) (acc : List SWPair)
    (hcond : (full = false ∧ oge0 s = true) ∨ (full = true ∧ 0 < n))
    (hbp : swBP refL hypL sim dS iS full m n = (pm, pn))
    (hbase : (pm = m ∧ pn = n) ∨ (pm = 0 ∧ pn = 0))
    (hs : swH refL hypL sim dS iS full m n ≠ 0) :
    swLoop refL hypL sim dS iS eps full (fuel + 1) m n s acc =
      Except.ok
        (⟨if 0 < m then refL.getD (m - 1) "" else eps,
          if 0 < n then hypL.getD (n - 1) "" else eps,
          pm, pn, m, n⟩ :: acc,
         some (swH refL hypL sim dS iS full pm pn)) := by
  rw [swLoop, if_pos hcond, hbp]
  simp only [if_pos hbase, if_pos hs]

theorem swLoop_base0 (refL hypL : List Tok) (sim : Tok → Tok → Int)
    (dS iS : Int) (eps : Tok) (full : Bool) (fuel m n pm pn : Nat)
    (s : Option Int) (acc : List SWPair)
    (hcond : (full = false ∧ oge0 s = true) ∨ (full = true ∧ 0 < n))
    (hbp : swBP refL hypL sim dS iS full m n = (pm, pn))
    (hbase : (pm = m ∧ pn = n) ∨ (pm = 0 ∧ pn = 0))
    (hs : swH refL hypL sim dS iS full m n = 0) :
    swLoop refL hypL sim dS iS eps full (fuel + 1) m n s acc =
      Except.ok (acc, some 0) := by
  rw [swLoop, if_pos hcond, hbp]
  simp only [if_pos hbase]
  rw [if_neg (by simp [hs]), hs]

theorem swLoop_diag (refL hypL : List Tok) (sim : Tok → Tok → Int)
    (dS iS : Int) (eps : Tok) (full : Bool) (fuel m n pm pn : Nat)
    (s : Option Int) (acc : List SWPair)
    (hcond : (full = false ∧ oge0 s = true) ∨ (full = true ∧ 0 < n))
    (hbp : swBP refL hypL sim dS iS full m n = (pm, pn))
    (hbase : ¬((pm = m ∧ pn = n) ∨ (pm = 0 ∧ pn = 0)))
    (hdiag : m = pm + 1 ∧ n = pn + 1) :
    swLoop refL hypL sim dS iS eps full (fuel + 1) m n s acc =
      swLoop refL hypL sim dS iS eps full fuel pm pn
        (some (swH refL hypL sim dS iS full pm pn))
        (⟨refL.getD pm "", hypL.getD pn "", pm, pn, m, n⟩ :: acc) := by
  rw [swLoop, if_pos hcond, hbp]
  simp only [if_neg hbase, if_pos hdiag]
  obtain ⟨h1, h2⟩ := hdiag
  subst h1; subst h2
  simp

theorem swLoop_del (refL hypL : List Tok) (sim : Tok → Tok → Int)
    (dS iS : Int) (eps : Tok) (full : Bool) (fuel m n pm pn : Nat)
    (s : Option Int) (acc : List SWPair)
    (hcond : (full = false ∧ oge0 s = true) ∨ (full = true ∧ 0 < n))
    (hbp : swBP refL hypL sim dS iS full m n = (pm, pn))
    (hbase : ¬((pm = m ∧ pn = n) ∨ (pm = 0 ∧ pn = 0)))
    (hdiag : ¬(m = pm + 1 ∧ n = pn + 1))
    (hdel : pn = n) (hm : pm + 1 = m) :
    swLoop refL hypL sim dS iS eps full (fuel + 1) m n s acc =
      swLoop refL hypL sim dS iS eps full fuel pm pn
        (some (swH refL hypL sim dS iS full pm pn))
        (⟨refL.getD pm "", eps, pm, pn, m, n⟩ :: acc) := by
  rw [swLoop, if_pos hcond, hbp]
  simp only [if_neg hbase, if_neg hdiag, if_pos hdel, if_pos hm]
  rw [← hm]
  simp

theorem swLoop_ins (refL hypL : List Tok) (sim : Tok → Tok → Int)
    (dS iS : Int) (eps : Tok) (full : Bool) (fuel m n pm pn : Nat)
    (s : Option Int) (acc : List SWPair)
    (hcond : (full = false ∧ oge0 s = true) ∨ (full = true ∧ 0 < n))
    (hbp : swBP refL hypL sim dS iS full m n = (pm, pn))
    (hbase : ¬((pm = m ∧ pn = n) ∨ (pm = 0 ∧ pn = 0)))
    (hdiag : ¬(m = pm + 1 ∧ n = pn + 1))
    (hdel : pn ≠ n) (hm : pm = m) (hn : pn + 1 = n) :
    swLoop refL hypL sim dS iS eps full (fuel + 1) m n s acc =
      swLoop refL hypL sim dS iS eps full fuel pm pn
        (some (swH refL hypL sim dS iS full pm pn))
        (⟨eps, hypL.getD pn "", pm, pn, m, n⟩ :: acc) := by
  rw [swLoop, if_pos hcond, hbp]
  simp only [if_neg hbase, if_neg hdiag, if_neg hdel, if_pos hm, if_pos hn]
  rw [← hn]
  simp

/-! ### Invariants carried through the full-hypothesis traceback -/

/-- The hypothesis-consuming records of `L` (those whose hypothesis span is
`[j, j+1)`), listed by their `hyp_from`, are exactly `0, 1, ..., n-1` in
order: every hypothesis index is covered exactly once. -/
def covOK (n : Nat) (L : List SWPair) : Prop :=
  (L.filter (fun r => r.hyp_to == r.hyp_from + 1)).map (fun r => r.hyp_from) =
    List.range n

/-- Consecutive `ref_from` values never decrease and step by at most one. -/
def chainOK (L : List SWPair) : Prop :=
  List.Chain' (fun a b => a ≤ b ∧ b ≤ a + 1) (L.map (fun r => r.ref_from))

theorem covOK_nil : covOK 0 [] := by simp [covOK]

theorem covOK_append_consuming (n : Nat) (L : List SWPair) (r : SWPair)
    (h : covOK n L) (hr : r.hyp_to = r.hyp_from + 1) (hfrom : r.hyp_from = n) :
    covOK (n + 1) (L ++ [r]) := by
  unfold covOK at h ⊢
  rw [List.filter_append, List.map_append, h]
  rw [List.filter_cons, if_pos (by simp [hr])]
  simp [hfrom, List.range_succ]

theorem covOK_append_skip (n : Nat) (L : List SWPair) (r : SWPair)
    (h : covOK n L) (hr : ¬(r.hyp_to = r.hyp_from + 1)) :
    covOK n (L ++ [r]) := by
  unfold covOK at h ⊢
  rw [List.filter_append, List.map_append]
  rw [List.filter_cons, if_neg (by simpa using hr)]
  simpa using h

theorem chainOK_append (L : List SWPair) (r : SWPair) (h : chainOK L)
    (hlink : ∀ x, (L.map (fun r => r.ref_from)).getLast? = some x →
      x ≤ r.ref_from ∧ r.ref_from ≤ x + 1) :
    chainOK (L ++ [r]) := by
  unfold chainOK at h ⊢
  rw [List.map_append]
  rw [List.chain'_append]
  refine ⟨h, by simp, ?_⟩
  intro x hx y hy
  simp only [List.map_cons, List.map_nil, List.head?_cons, Option.mem_def,
    Option.some.injEq] at hy
  exact hy ▸ hlink x hx

theorem map_append_getLast (L : List SWPair) (r : SWPair)
    (f : SWPair → Nat) :
    ((L ++ [r]).map f).getLast? = some (f r) := by
  rw [List.map_append]
  simp [List.getLast?_concat]

/-- The corner cell `(1,1)` in full-hypothesis fixed-scoring mode: its value
is the similarity of the first tokens (2 or -1, never 0) and its backpointer
is `(0, 0)`. -/
theorem swHB_one_one (refL hypL : List Tok) :
    swHB refL hypL similarity_fixed (-1) (-1) true 1 1 =
      (similarity_fixed (refL.getD 0 "") (hypL.getD 0 ""), 0, 0) := by
  have h00 : swH refL hypL similarity_fixed (-1) (-1) true 0 0 = 0 := by
    rw [swH_row0_fixed]; simp
  have h01 : swH refL hypL similarity_fixed (-1) (-1) true 0 1 = -1 := by
    rw [swH_row0_fixed]; simp
  have h10 : swH refL hypL similarity_fixed (-1) (-1) true 1 0 = 0 :=
    swH_col0 ..
  have hsim := similarity_fixed_ge (refL.getD 0 "") (hypL.getD 0 "")
  have hY : (0 : Int) ≤ (hypL.length : Int) := by positivity
  rw [swHB_succ_succ_full, h00, h01, h10]
  rw [swCell_diag_eq _ _ _ _ _ _ (by omega) (by omega) (by omega)]
  norm_num

theorem swH_one_one_ne (refL hypL : List Tok) :
    swH refL hypL similarity_fixed (-1) (-1) true 1 1 ≠ 0 := by
  unfold swH
  rw [swHB_one_one]
  rcases similarity_fixed_cases (refL.getD 0 "") (hypL.getD 0 "") with h | h <;>
    rw [h] <;> norm_num

/-- The full-hypothesis traceback under the fixed scoring: starting anywhere
in column `n ≤ hyp_len` with enough fuel, the loop succeeds and its new
records, in output order, consume hypothesis indices `0, ..., n-1` exactly
once; their reference indices never decrease, step by at most one, stay below
the start row, and end at `m-1` or `m`. -/
theorem swLoop_full_fixed (refL hypL : List Tok) (eps : Tok) :
    ∀ fuel m n (s : Option Int) (acc : List SWPair),
      m + n < fuel → n ≤ hypL.length →
      ∃ L s2,
        swLoop refL hypL similarity_fixed (-1) (-1) eps true fuel m n s acc =
          Except.ok (L ++ acc, s2) ∧
        covOK n L ∧ chainOK L ∧ (∀ r ∈ L, r.ref_from ≤ m) ∧
        (n = 0 → L = []) ∧
        (1 ≤ n → ∃ x, (L.map (fun r => r.ref_from)).getLast? = some x ∧
          m - 1 ≤ x ∧ x ≤ m) := by
  intro fuel
  induction fuel with
  | zero => intro m n s acc h _; omega
  | succ f ih =>
    intro m n s acc hfuel hn
    cases n with
    | zero =>
      refine ⟨[], s, ?_, covOK_nil, by simp [chainOK], by simp,
        fun _ => rfl, by omega⟩
      rw [swLoop_exit refL hypL similarity_fixed (-1) (-1) eps true f m 0 s
        acc (by simp)]
      rfl
    | succ n' =>
      have hcond : (true = false ∧ oge0 s = true) ∨
          (true = true ∧ 0 < n' + 1) := Or.inr ⟨rfl, by omega⟩
      cases m with
      | zero =>
        have hbp := swBP_row0 refL hypL similarity_fixed (-1) (-1) n'
        cases n' with
        | zero =>
          -- base case at cell (0, 1): emits the record (eps, hyp[0], 0,0,0,1)
          have hs : swH refL hypL similarity_fixed (-1) (-1) true 0 1 ≠ 0 := by
            rw [swH_row0_fixed]; norm_num
          refine ⟨[⟨eps, hypL.getD 0 "", 0, 0, 0, 1⟩],
            some (swH refL hypL similarity_fixed (-1) (-1) true 0 0),
            ?_, ?_, ?_, ?_, ?_, ?_⟩
          · rw [swLoop_base refL hypL similarity_fixed (-1) (-1) eps true f
              0 1 0 0 s acc hcond hbp (Or.inr ⟨rfl, rfl⟩) hs]
            norm_num
          · simp [covOK, List.range_succ]
          · simp [chainOK]
          · intro r hr; simp at hr; simp [hr]
          · intro h; exact absurd h (by norm_num)
          · intro _; exact ⟨0, by simp, by omega, by omega⟩
        | succ k =>
          -- insertion along row 0
          obtain ⟨L', s2, heq, hcov, hchain, hub, hzero, hlast⟩ :=
            ih 0 (k + 1)
              (some (swH refL hypL similarity_fixed (-1) (-1) true 0 (k + 1)))
              (⟨eps, hypL.getD (k + 1) "", 0, k + 1, 0, k + 1 + 1⟩ :: acc)
              (by omega) (by omega)
          refine ⟨L' ++ [⟨eps, hypL.getD (k + 1) "", 0, k + 1, 0, k + 1 + 1⟩], s2,
            ?_, ?_, ?_, ?_, ?_, ?_⟩
          · rw [swLoop_ins refL hypL similarity_fixed (-1) (-1) eps true f
              0 (k + 1 + 1) 0 (k + 1) s acc hcond hbp (by omega) (by omega)
              (by omega) rfl rfl, heq, List.append_assoc,
              List.singleton_append]
          · exact covOK_append_consuming (k + 1) L' _ hcov rfl rfl
          · refine chainOK_append L' _ hchain ?_
            intro x hx
            obtain ⟨y, hy, hy1, hy2⟩ := hlast (by omega)
            rw [hy] at hx
            injection hx with hx
            dsimp only
            omega
          · intro r hr
            rcases List.mem_append.mp hr with h | h
            · exact le_trans (hub r h) (by omega)
            · simp at h; simp [h]
          · intro h; exact absurd h (by norm_num)
          · intro _
            exact ⟨0, map_append_getLast .., by omega, by omega⟩
      | succ m' =>
        rcases swBP_fixed_shape refL hypL m' n' (by omega) with hbp | hbp | hbp
        · -- diagonal move to (m', n')
          by_cases hcorner : m' = 0 ∧ n' = 0
          · obtain ⟨hm0, hn0⟩ := hcorner
            subst hm0; subst hn0
            refine ⟨[⟨refL.getD 0 "", hypL.getD 0 "", 0, 0, 1, 1⟩],
              some (swH refL hypL similarity_fixed (-1) (-1) true 0 0),
              ?_, ?_, ?_, ?_, ?_, ?_⟩
            · rw [swLoop_base refL hypL similarity_fixed (-1) (-1) eps true f
                1 1 0 0 s acc hcond hbp (Or.inr ⟨rfl, rfl⟩)
                (swH_one_one_ne refL hypL)]
              norm_num
            · simp [covOK, List.range_succ]
            · simp [chainOK]
            · intro r hr; simp at hr; simp [hr]
            · intro h; exact absurd h (by norm_num)
            · intro _; exact ⟨0, by simp, by omega, by omega⟩
          · have hbase : ¬((m' = m' + 1 ∧ n' = n' + 1) ∨
                (m' = 0 ∧ n' = 0)) := by
              rintro (⟨h1, -⟩ | h2)
              · omega
              · exact hcorner h2
            obtain ⟨L', s2, heq, hcov, hchain, hub, hzero, hlast⟩ :=
              ih m' n'
                (some (swH refL hypL similarity_fixed (-1) (-1) true m' n'))
                (⟨refL.getD m' "", hypL.getD n' "", m', n', m' + 1, n' + 1⟩
                  :: acc)
                (by omega) (by omega)
            refine ⟨L' ++
              [⟨refL.getD m' "", hypL.getD n' "", m', n', m' + 1, n' + 1⟩],
              s2, ?_, ?_, ?_, ?_, ?_, ?_⟩
            · rw [swLoop_diag refL hypL similarity_fixed (-1) (-1) eps true f
                (m' + 1) (n' + 1) m' n' s acc hcond hbp hbase ⟨rfl, rfl⟩,
                heq, List.append_assoc, List.singleton_append]
            · exact covOK_append_consuming n' L' _ hcov rfl rfl
            · refine chainOK_append L' _ hchain ?_
              intro x hx
              rcases Nat.eq_zero_or_pos n' with h0 | hpos
              · rw [hzero h0] at hx; simp at hx
              · obtain ⟨y, hy, hy1, hy2⟩ := hlast hpos
                rw [hy] at hx
                injection hx with hx
                dsimp only
                omega
            · intro r hr
              rcases List.mem_append.mp hr with h | h
              · exact le_trans (hub r h) (by omega)
              · simp at h; simp [h]
            · intro h; exact absurd h (by norm_num)
            · intro _
              exact ⟨m', map_append_getLast .., by omega, by omega⟩
        · -- deletion move to (m', n' + 1)
          obtain ⟨L', s2, heq, hcov, hchain, hub, hzero, hlast⟩ :=
            ih m' (n' + 1)
              (some (swH refL hypL similarity_fixed (-1) (-1) true m' (n' + 1)))
              (⟨refL.getD m' "", eps, m', n' + 1, m' + 1, n' + 1⟩ :: acc)
              (by omega) hn
          refine ⟨L' ++ [⟨refL.getD m' "", eps, m', n' + 1, m' + 1, n' + 1⟩],
            s2, ?_, ?_, ?_, ?_, ?_, ?_⟩
          · rw [swLoop_del refL hypL similarity_fixed (-1) (-1) eps true f
              (m' + 1) (n' + 1) m' (n' + 1) s acc hcond hbp (by omega)
              (by omega) rfl rfl, heq, List.append_assoc,
              List.singleton_append]
          · exact covOK_append_skip (n' + 1) L' _ hcov (by simp)
          · refine chainOK_append L' _ hchain ?_
            intro x hx
            obtain ⟨y, hy, hy1, hy2⟩ := hlast (by omega)
            rw [hy] at hx
            injection hx with hx
            dsimp only
            omega
          · intro r hr
            rcases List.mem_append.mp hr with h | h
            · exact le_trans (hub r h) (by omega)
            · simp at h; simp [h]
          · intro h; exact absurd h (by norm_num)
          · intro _
            exact ⟨m', map_append_getLast .., by omega, by omega⟩
        · -- insertion move to (m' + 1, n')
          obtain ⟨L', s2, heq, hcov, hchain, hub, hzero, hlast⟩ :=
            ih (m' + 1) n'
              (some (swH refL hypL similarity_fixed (-1) (-1) true (m' + 1) n'))
              (⟨eps, hypL.getD n' "", m' + 1, n', m' + 1, n' + 1⟩ :: acc)
              (by omega) (by omega)
          refine ⟨L' ++ [⟨eps, hypL.getD n' "", m' + 1, n', m' + 1, n' + 1⟩],
            s2, ?_, ?_, ?_, ?_, ?_, ?_⟩
          · rw [swLoop_ins refL hypL similarity_fixed (-1) (-1) eps true f
              (m' + 1) (n' + 1) (m' + 1) n' s acc hcond hbp (by omega)
              (by omega) (by omega) rfl rfl, heq, List.append_assoc,
              List.singleton_append]
          · exact covOK_append_consuming n' L' _ hcov rfl rfl
          · refine chainOK_append L' _ hchain ?_
            intro x hx
            rcases Nat.eq_zero_or_pos n' with h0 | hpos
            · rw [hzero h0] at hx; simp at hx
            · obtain ⟨y, hy, hy1, hy2⟩ := hlast hpos
              rw [hy] at hx
              injection hx with hx
              dsimp only
              omega
          · intro r hr
            rcases List.mem_append.mp hr with h | h
            · exact hub r h
            · simp at h; simp [h]
          · intro h; exact absurd h (by norm_num)
          · intro _
            exact ⟨m' + 1, map_append_getLast .., by omega, by omega⟩

/-! ### Local-mode facts -/

theorem swH_row0_local (refL hypL : List Tok) (sim : Tok → Tok → Int)
    (dS iS : Int) (n : Nat) :
    swH refL hypL sim dS iS false 0 n = 0 := by
  cases n <;> simp [swH, swHB, swRow0]

/-- In local mode every cell of `H` is non-negative (classic reset-to-zero
boundary plus a `> 0` acceptance test). -/
theorem swH_local_nonneg (refL hypL : List Tok) (sim : Tok → Tok → Int)
    (dS iS : Int) : ∀ m n, 0 ≤ swH refL hypL sim dS iS false m n := by
  intro m n
  cases m with
  | zero => rw [swH_row0_local]
  | succ m' =>
    cases n with
    | zero => rw [swH_col0]
    | succ n' =>
      have := congrArg Prod.fst
        (swHB_succ_succ_local refL hypL sim dS iS m' n')
      unfold swH
      rw [this]
      exact swCell_local_nonneg ..

theorem swH_zero_zero (refL hypL : List Tok) (sim : Tok → Tok → Int)
    (dS iS : Int) (full : Bool) :
    swH refL hypL sim dS iS full 0 0 = 0 := rfl

theorem swBP_zero_zero (refL hypL : List Tok) (sim : Tok → Tok → Int)
    (dS iS : Int) (full : Bool) :
    swBP refL hypL sim dS iS full 0 0 = (0, 0) := rfl

/-- The generic backpointer shape of an interior cell, any mode and any
scoring: one of the three moves or the untouched `(0, 0)` initialisation. -/
theorem swBP_shape (refL hypL : List Tok) (sim : Tok → Tok → Int)
    (dS iS : Int) (full : Bool) (m n : Nat) :
    swBP refL hypL sim dS iS full (m + 1) (n + 1) = (m, n) ∨
    swBP refL hypL sim dS iS full (m + 1) (n + 1) = (0, 0) ∨
    swBP refL hypL sim dS iS full (m + 1) (n + 1) = (m, n + 1) ∨
    swBP refL hypL sim dS iS full (m + 1) (n + 1) = (m + 1, n) := by
  have := congrArg Prod.snd (swHB_succ_succ refL hypL sim dS iS full m n)
  unfold swBP
  rw [this]
  exact swCell_bp_mem ..

/-- The local-mode traceback: started at any cell with a non-negative score,
it terminates by a base-case break with running score exactly `0` (so the
final `assert score == 0` never fires once the loop has been entered). -/
theorem swLoop_local_zero (refL hypL : List Tok) (sim : Tok → Tok → Int)
    (dS iS : Int) (eps : Tok) :
    ∀ fuel m n (v : Int) (acc : List SWPair), m + n < fuel → 0 ≤ v →
      ∃ L, swLoop refL hypL sim dS iS eps false fuel m n (some v) acc =
        Except.ok (L ++ acc, some 0) := by
  intro fuel
  induction fuel with
  | zero => intro m n v acc h _; omega
  | succ f ih =>
    intro m n v acc hfuel hv
    have hcond : (false = false ∧ oge0 (some v) = true) ∨
        (false = true ∧ 0 < n) :=
      Or.inl ⟨rfl, by simp [oge0]; exact hv⟩
    cases m with
    | zero =>
      cases n with
      | zero =>
        refine ⟨[], ?_⟩
        rw [swLoop_base0 refL hypL sim dS iS eps false f 0 0 0 0 (some v) acc
          hcond (swBP_zero_zero ..) (Or.inr ⟨rfl, rfl⟩) (swH_zero_zero ..)]
        rfl
      | succ n' =>
        refine ⟨[], ?_⟩
        rw [swLoop_base0 refL hypL sim dS iS eps false f 0 (n' + 1) 0 0
          (some v) acc hcond (swBP_row0_local ..) (Or.inr ⟨rfl, rfl⟩)
          (swH_row0_local ..)]
        rfl
    | succ m' =>
      cases n with
      | zero =>
        refine ⟨[], ?_⟩
        rw [swLoop_base0 refL hypL sim dS iS eps false f (m' + 1) 0 0 0
          (some v) acc hcond (swBP_col0 ..) (Or.inr ⟨rfl, rfl⟩)
          (swH_col0 ..)]
        rfl
      | succ n' =>
        have hnn := swH_local_nonneg refL hypL sim dS iS
        rcases swBP_shape refL hypL sim dS iS false m' n' with
          hbp | hbp | hbp | hbp
        · -- diagonal, possibly the (0,0) base corner
          by_cases hcorner : m' = 0 ∧ n' = 0
          · obtain ⟨h1, h2⟩ := hcorner
            subst h1; subst h2
            by_cases hs : swH refL hypL sim dS iS false 1 1 = 0
            · refine ⟨[], ?_⟩
              rw [swLoop_base0 refL hypL sim dS iS eps false f 1 1 0 0
                (some v) acc hcond hbp (Or.inr ⟨rfl, rfl⟩) hs]
              rfl
            · refine ⟨[⟨refL.getD 0 "", hypL.getD 0 "", 0, 0, 1, 1⟩], ?_⟩
              rw [swLoop_base refL hypL sim dS iS eps false f 1 1 0 0
                (some v) acc hcond hbp (Or.inr ⟨rfl, rfl⟩) hs]
              rw [swH_zero_zero]
              norm_num
          · have hbase : ¬((m' = m' + 1 ∧ n' = n' + 1) ∨
                (m' = 0 ∧ n' = 0)) := by
              rintro (⟨h1, -⟩ | h2)
              · omega
              · exact hcorner h2
            obtain ⟨L, hL⟩ := ih m' n'
              (swH refL hypL sim dS iS false m' n')
              (⟨refL.getD m' "", hypL.getD n' "", m', n', m' + 1, n' + 1⟩
                :: acc) (by omega) (hnn ..)
            refine ⟨L ++
              [⟨refL.getD m' "", hypL.getD n' "", m', n', m' + 1, n' + 1⟩],
              ?_⟩
            rw [swLoop_diag refL hypL sim dS iS eps false f (m' + 1) (n' + 1)
              m' n' (some v) acc hcond hbp hbase ⟨rfl, rfl⟩, hL,
              List.append_assoc, List.singleton_append]
        · -- untouched (0,0) backpointer: base case
          by_cases hs : swH refL hypL sim dS iS false (m' + 1) (n' + 1) = 0
          · refine ⟨[], ?_⟩
            rw [swLoop_base0 refL hypL sim dS iS eps false f (m' + 1) (n' + 1)
              0 0 (some v) acc hcond hbp (Or.inr ⟨rfl, rfl⟩) hs]
            rfl
          · refine ⟨[⟨refL.getD m' "", hypL.getD n' "", 0, 0, m' + 1,
              n' + 1⟩], ?_⟩
            rw [swLoop_base refL hypL sim dS iS eps false f (m' + 1) (n' + 1)
              0 0 (some v) acc hcond hbp (Or.inr ⟨rfl, rfl⟩) hs]
            rw [swH_zero_zero]
            norm_num
        · -- deletion
          obtain ⟨L, hL⟩ := ih m' (n' + 1)
            (swH refL hypL sim dS iS false m' (n' + 1))
            (⟨refL.getD m' "", eps, m', n' + 1, m' + 1, n' + 1⟩ :: acc)
            (by omega) (hnn ..)
          refine ⟨L ++ [⟨refL.getD m' "", eps, m', n' + 1, m' + 1, n' + 1⟩],
            ?_⟩
          rw [swLoop_del refL hypL sim dS iS eps false f (m' + 1) (n' + 1)
            m' (n' + 1) (some v) acc hcond hbp (by omega) (by omega) rfl rfl,
            hL, List.append_assoc, List.singleton_append]
        · -- insertion
          obtain ⟨L, hL⟩ := ih (m' + 1) n'
            (swH refL hypL sim dS iS false (m' + 1) n')
            (⟨eps, hypL.getD n' "", m' + 1, n', m' + 1, n' + 1⟩ :: acc)
            (by omega) (hnn ..)
          refine ⟨L ++ [⟨eps, hypL.getD n' "", m' + 1, n', m' + 1, n' + 1⟩],
            ?_⟩
          rw [swLoop_ins refL hypL sim dS iS eps false f (m' + 1) (n' + 1)
            (m' + 1) n' (some v) acc hcond hbp (by omega) (by omega)
            (by omega) rfl rfl, hL, List.append_assoc, List.singleton_append]

/-! ### No record carries the sentinel on both sides -/

theorem getD_mem (l : List Tok) (i : Nat) (d : Tok) (h : i < l.length) :
    l.getD i d ∈ l := by
  rw [List.getD_eq_getElem l d h]
  exact List.getElem_mem ..

/-- Whenever the traceback loop succeeds from an in-range cell, every record
it added has at most one sentinel slot (any scoring, any mode), provided the
sentinel is not itself a token of either sequence. -/
theorem swLoop_no_eps_eps (refL hypL : List Tok) (sim : Tok → Tok → Int)
    (dS iS : Int) (eps : Tok) (full : Bool)
    (heR : eps ∉ refL) (heY : eps ∉ hypL) :
    ∀ fuel m n (s : Option Int) (acc res : List SWPair) (s2 : Option Int),
      m ≤ refL.length → n ≤ hypL.length →
      swLoop refL hypL sim dS iS eps full fuel m n s acc =
        Except.ok (res, s2) →
      ∀ r ∈ res, r ∈ acc ∨ ¬(r.ref_word = eps ∧ r.hyp_word = eps) := by
  intro fuel
  induction fuel with
  | zero =>
    intro m n s acc res s2 _ _ h
    exact absurd h (by simp [swLoop])
  | succ f ih =>
    intro m n s acc res s2 hm hn hres
    by_cases hcond : (full = false ∧ oge0 s = true) ∨ (full = true ∧ 0 < n)
    · -- the loop body runs; analyse the backpointer
      have hrefW : 0 < m → refL.getD (m - 1) "" ∈ refL := fun h =>
        getD_mem refL (m - 1) "" (by omega)
      have hhypW : 0 < n → hypL.getD (n - 1) "" ∈ hypL := fun h =>
        getD_mem hypL (n - 1) "" (by omega)
      have hgood : ∀ rw hw (pm pn : Nat),
          (0 < m ∨ 0 < n) →
          (rw = (if 0 < m then refL.getD (m - 1) "" else eps)) →
          (hw = (if 0 < n then hypL.getD (n - 1) "" else eps)) →
          ¬((rw : Tok) = eps ∧ hw = eps) := by
        intro rw hw pm pn hpos hrw hhw
        rintro ⟨h1, h2⟩
        rcases hpos with h | h
        · rw [hrw, if_pos h] at h1
          exact heR (h1 ▸ hrefW h)
        · rw [hhw, if_pos h] at h2
          exact heY (h2 ▸ hhypW h)
      -- case analysis on the cell
      rcases Nat.eq_zero_or_pos m with hm0 | hmpos
      · subst hm0
        rcases Nat.eq_zero_or_pos n with hn0 | hnpos
        · subst hn0
          rw [swLoop_base0 refL hypL sim dS iS eps full f 0 0 0 0 s acc
            hcond (swBP_zero_zero ..) (Or.inr ⟨rfl, rfl⟩)
            (swH_zero_zero ..)] at hres
          injection hres with hres
          injection hres with hres _
          subst hres
          intro r hr; exact Or.inl hr
        · -- row 0, n ≥ 1
          obtain ⟨n', rfl⟩ : ∃ n', n = n' + 1 := ⟨n - 1, by omega⟩
          cases full with
          | false =>
            by_cases hs : swH refL hypL sim dS iS false 0 (n' + 1) = 0
            · rw [swLoop_base0 refL hypL sim dS iS eps false f 0 (n' + 1) 0 0
                s acc hcond (swBP_row0_local ..)
                (Or.inr ⟨rfl, rfl⟩) hs] at hres
              injection hres with hres
              injection hres with hres _
              subst hres
              intro r hr; exact Or.inl hr
            · rw [swLoop_base refL hypL sim dS iS eps false f 0 (n' + 1) 0 0
                s acc hcond (swBP_row0_local ..)
                (Or.inr ⟨rfl, rfl⟩) hs] at hres
              injection hres with hres
              injection hres with hres _
              subst hres
              intro r hr
              rcases List.mem_cons.mp hr with h | h
              · right
                subst h
                exact hgood _ _ 0 0 (Or.inr (by omega)) rfl rfl
              · exact Or.inl h
          | true =>
            cases n' with
            | zero =>
              by_cases hs : swH refL hypL sim dS iS true 0 1 = 0
              · rw [swLoop_base0 refL hypL sim dS iS eps true f 0 1 0 0
                  s acc hcond (swBP_row0 ..) (Or.inr ⟨rfl, rfl⟩)
                  hs] at hres
                injection hres with hres
                injection hres with hres _
                subst hres
                intro r hr; exact Or.inl hr
              · rw [swLoop_base refL hypL sim dS iS eps true f 0 1 0 0
                  s acc hcond (swBP_row0 ..) (Or.inr ⟨rfl, rfl⟩)
                  hs] at hres
                injection hres with hres
                injection hres with hres _
                subst hres
                intro r hr
                rcases List.mem_cons.mp hr with h | h
                · right
                  subst h
                  exact hgood _ _ 0 0 (Or.inr (by omega)) rfl rfl
                · exact Or.inl h
            | succ k =>
              rw [swLoop_ins refL hypL sim dS iS eps true f 0 (k + 1 + 1) 0
                (k + 1) s acc hcond (swBP_row0 ..) (by omega)
                (by omega) (by omega) rfl rfl] at hres
              have := ih 0 (k + 1) _ _ res s2 (by omega) (by omega) hres
              intro r hr
              rcases this r hr with h | h
              · rcases List.mem_cons.mp h with h2 | h2
                · right
                  subst h2
                  rintro ⟨-, h3⟩
                  exact heY (h3 ▸ getD_mem hypL (k + 1) "" (by omega))
                · exact Or.inl h2
              · exact Or.inr h
      · -- m ≥ 1
        obtain ⟨m', rfl⟩ : ∃ m', m = m' + 1 := ⟨m - 1, by omega⟩
        rcases Nat.eq_zero_or_pos n with hn0 | hnpos
        · subst hn0
          rw [swLoop_base0 refL hypL sim dS iS eps full f (m' + 1) 0 0 0 s acc
            hcond (swBP_col0 ..) (Or.inr ⟨rfl, rfl⟩) (swH_col0 ..)] at hres
          injection hres with hres
          injection hres with hres _
          subst hres
          intro r hr; exact Or.inl hr
        · obtain ⟨n', rfl⟩ : ∃ n', n = n' + 1 := ⟨n - 1, by omega⟩
          rcases swBP_shape refL hypL sim dS iS full m' n' with
            hbp | hbp | hbp | hbp
          · -- diagonal
            by_cases hcorner : m' = 0 ∧ n' = 0
            · obtain ⟨h1, h2⟩ := hcorner
              subst h1; subst h2
              by_cases hs : swH refL hypL sim dS iS full 1 1 = 0
              · rw [swLoop_base0 refL hypL sim dS iS eps full f 1 1 0 0
                  s acc hcond hbp (Or.inr ⟨rfl, rfl⟩) hs] at hres
                injection hres with hres
                injection hres with hres _
                subst hres
                intro r hr; exact Or.inl hr
              · rw [swLoop_base refL hypL sim dS iS eps full f 1 1 0 0
                  s acc hcond hbp (Or.inr ⟨rfl, rfl⟩) hs] at hres
                injection hres with hres
                injection hres with hres _
                subst hres
                intro r hr
                rcases List.mem_cons.mp hr with h | h
                · right
                  subst h
                  exact hgood _ _ 0 0 (Or.inl (by omega)) rfl rfl
                · exact Or.inl h
            · have hbase : ¬((m' = m' + 1 ∧ n' = n' + 1) ∨
                  (m' = 0 ∧ n' = 0)) := by
                rintro (⟨h1, -⟩ | h2)
                · omega
                · exact hcorner h2
              rw [swLoop_diag refL hypL sim dS iS eps full f (m' + 1)
                (n' + 1) m' n' s acc hcond hbp hbase ⟨rfl, rfl⟩] at hres
              have := ih m' n' _ _ res s2 (by omega) (by omega) hres
              intro r hr
              rcases this r hr with h | h
              · rcases List.mem_cons.mp h with h2 | h2
                · right
                  subst h2
                  rintro ⟨h3, -⟩
                  exact heR (h3 ▸ getD_mem refL m' "" (by omega))
                · exact Or.inl h2
              · exact Or.inr h
          · -- untouched (0,0) backpointer: base case
            by_cases hs : swH refL hypL sim dS iS full (m' + 1) (n' + 1) = 0
            · rw [swLoop_base0 refL hypL sim dS iS eps full f (m' + 1)
                (n' + 1) 0 0 s acc hcond hbp (Or.inr ⟨rfl, rfl⟩) hs] at hres
              injection hres with hres
              injection hres with hres _
              subst hres
              intro r hr; exact Or.inl hr
            · rw [swLoop_base refL hypL sim dS iS eps full f (m' + 1)
                (n' + 1) 0 0 s acc hcond hbp (Or.inr ⟨rfl, rfl⟩) hs] at hres
              injection hres with hres
              injection hres with hres _
              subst hres
              intro r hr
              rcases List.mem_cons.mp hr with h | h
              · right
                subst h
                exact hgood _ _ 0 0 (Or.inl (by omega)) rfl rfl
              · exact Or.inl h
          · -- deletion
            rw [swLoop_del refL hypL sim dS iS eps full f (m' + 1) (n' + 1)
              m' (n' + 1) s acc hcond hbp (by omega) (by omega) rfl rfl]
              at hres
            have := ih m' (n' + 1) _ _ res s2 (by omega) (by omega) hres
            intro r hr
            rcases this r hr with h | h
            · rcases List.mem_cons.mp h with h2 | h2
              · right
                subst h2
                rintro ⟨h3, -⟩
                exact heR (h3 ▸ getD_mem refL m' "" (by omega))
              · exact Or.inl h2
            · exact Or.inr h
          · -- insertion
            rw [swLoop_ins refL hypL sim dS iS eps full f (m' + 1) (n' + 1)
              (m' + 1) n' s acc hcond hbp (by omega) (by omega) (by omega)
              rfl rfl] at hres
            have := ih (m' + 1) n' _ _ res s2 (by omega) (by omega) hres
            intro r hr
            rcases this r hr with h | h
            · rcases List.mem_cons.mp h with h2 | h2
              · right
                subst h2
                rintro ⟨-, h3⟩
                exact heY (h3 ▸ getD_mem hypL n' "" (by omega))
              · exact Or.inl h2
            · exact Or.inr h
    · rw [swLoop_exit refL hypL sim dS iS eps full f m n s acc hcond] at hres
      injection hres with hres
      injection hres with hres _
      subst hres
      intro r hr; exact Or.inl hr

/-! ### The traceback on identical sequences -/

/-- The output the aligner produces on `ref = hyp`: one match record per
position. -/
def diagL (refL : List Tok) (k : Nat) : List SWPair :=
  (List.range k).map
    (fun j => ⟨refL.getD j "", refL.getD j "", j, j, j + 1, j + 1⟩)

theorem swLoop_diag_trace (refL : List Tok) (eps : Tok) :
    ∀ k, 1 ≤ k → k ≤ refL.length → ∀ fuel, 2 * k < fuel →
      ∀ (s : Option Int) (acc : List SWPair),
        swLoop refL refL similarity_fixed (-1) (-1) eps true fuel k k s acc =
          Except.ok (diagL refL k ++ acc, some 0) := by
  intro k
  induction k with
  | zero => omega
  | succ k ihk =>
    intro _ hkR fuel hfuel s acc
    obtain ⟨f, rfl⟩ : ∃ f, fuel = f + 1 := ⟨fuel - 1, by omega⟩
    have hcond : (true = false ∧ oge0 s = true) ∨
        (true = true ∧ 0 < k + 1) := Or.inr ⟨rfl, by omega⟩
    cases k with
    | zero =>
      have hbp : swBP refL refL similarity_fixed (-1) (-1) true 1 1 =
          (0, 0) := by
        unfold swBP
        rw [swHB_one_one]
      rw [swLoop_base refL refL similarity_fixed (-1) (-1) eps true f 1 1 0 0
        s acc hcond hbp (Or.inr ⟨rfl, rfl⟩) (swH_one_one_ne refL refL)]
      rw [swH_zero_zero]
      unfold diagL
      simp [List.range_succ]
    | succ k =>
      have hdg := swHB_diag refL (k + 1) (by omega) (by omega)
      have hbp : swBP refL refL similarity_fixed (-1) (-1) true (k + 1 + 1)
          (k + 1 + 1) = (k + 1, k + 1) := by
        unfold swBP
        rw [show swHB refL refL similarity_fixed (-1) (-1) true (k + 1 + 1)
            (k + 1 + 1) = (2 * ((k + 1 + 1 : Nat) : Int), k + 1 + 1 - 1,
            k + 1 + 1 - 1) from swHB_diag refL (k + 1 + 1) (by omega) hkR]
        rfl
      have hbase : ¬((k + 1 = k + 1 + 1 ∧ k + 1 = k + 1 + 1) ∨
          (k + 1 = 0 ∧ k + 1 = 0)) := by omega
      rw [swLoop_diag refL refL similarity_fixed (-1) (-1) eps true f
        (k + 1 + 1) (k + 1 + 1) (k + 1) (k + 1) s acc hcond hbp hbase
        ⟨rfl, rfl⟩]
      rw [ihk (by omega) (by omega) f (by omega) _ _]
      rw [show diagL refL (k + 1 + 1) = diagL refL (k + 1) ++
          [⟨refL.getD (k + 1) "", refL.getD (k + 1) "", k + 1, k + 1,
            k + 1 + 1, k + 1 + 1⟩] from by
        unfold diagL
        rw [List.range_succ, List.map_append]
        rfl]
      rw [List.append_assoc, List.singleton_append]

/-- On identical sequences the maximum search ends at the corner `(L, L)`
with value `2L`. -/
theorem swMax_diag (refL : List Tok) (hR : refL ≠ []) :
    swMax refL refL similarity_fixed (-1) (-1) true =
      (some (2 * (refL.length : Int)), refL.length, refL.length) := by
  unfold swMax
  rw [foldl_ext _ _
    (fun acc m =>
      if optLe acc.1
          (swH refL refL similarity_fixed (-1) (-1) true m refL.length) = true
      then (some (swH refL refL similarity_fixed (-1) (-1) true m
        refL.length), m, refL.length)
      else acc)
    _ (fun x a _ => swMax_inner_full refL refL similarity_fixed (-1) (-1) a
      hR x)]
  obtain ⟨K, hK⟩ : ∃ K, refL.length = K + 1 :=
    ⟨refL.length - 1, by have := List.length_pos.mpr hR; omega⟩
  have hHLL : swH refL refL similarity_fixed (-1) (-1) true refL.length
      refL.length = 2 * (refL.length : Int) := by
    unfold swH
    rw [swHB_diag refL refL.length (by omega) le_rfl]
  -- over rows 1..K the accumulator is the start state or a strictly smaller
  -- value; row K+1 therefore always wins
  have hpre : ∀ acc,
      (acc = ((none : Option Int), 0, 0) ∨
        ∃ M v, 1 ≤ M ∧ M ≤ K ∧ acc = (some v, M, refL.length) ∧
          v < 2 * (refL.length : Int)) →
      ((List.range' 1 K).foldl
        (fun acc m =>
          if optLe acc.1
              (swH refL refL similarity_fixed (-1) (-1) true m refL.length) =
            true
          then (some (swH refL refL similarity_fixed (-1) (-1) true m
            refL.length), m, refL.length)
          else acc) acc = ((none : Option Int), 0, 0) ∨
        ∃ M v, 1 ≤ M ∧ M ≤ K ∧
          (List.range' 1 K).foldl
            (fun acc m =>
              if optLe acc.1
                  (swH refL refL similarity_fixed (-1) (-1) true m
                    refL.length) = true
              then (some (swH refL refL similarity_fixed (-1) (-1) true m
                refL.length), m, refL.length)
              else acc) acc = (some v, M, refL.length) ∧
          v < 2 * (refL.length : Int)) := by
    intro acc hacc
    apply foldl_inv (C := fun acc => acc = ((none : Option Int), 0, 0) ∨
      ∃ M v, 1 ≤ M ∧ M ≤ K ∧ acc = (some v, M, refL.length) ∧
        v < 2 * (refL.length : Int))
    · exact hacc
    · intro x hx a ha
      rw [List.mem_range'_1] at ha
      split
      · refine Or.inr ⟨a, _, by omega, by omega, rfl, ?_⟩
        have hub := swH_fixed_ub refL refL a refL.length le_rfl
        unfold Bnd at hub
        rw [if_neg (by omega)] at hub
        have : (a : Int) ≤ (K : Int) := by exact_mod_cast (by omega : a ≤ K)
        have hcast : (refL.length : Int) = (K : Int) + 1 := by
          exact_mod_cast hK
        omega
      · exact hx
  rw [hK, List.range'_concat]
  rw [List.foldl_append, List.foldl_cons, List.foldl_nil]
  have hlast : (1 + 1 * K) = K + 1 := by omega
  rw [hlast, ← hK]
  rcases hpre (none, 0, 0) (Or.inl rfl) with h | ⟨M, v, hM1, hM2, h, hv⟩ <;>
    rw [h]
  · rw [if_pos (by simp [optLe]), hHLL, hK]
  · rw [if_pos (by simp [optLe]; rw [hHLL]; omega), hHLL, hK]

/-! ### Assembling `smith_waterman_alignment` -/

theorem smith_waterman_eq_of (refL hypL : List Tok) (sim : Tok → Tok → Int)
    (dS iS : Int) (eps : Tok) (full : Bool) (v : Int) (M N : Nat)
    (out : List SWPair) (s2 : Option Int)
    (hmax : swMax refL hypL sim dS iS full = (some v, M, N))
    (hloop : swLoop refL hypL sim dS iS eps full (M + N + 1) M N (some v) [] =
      Except.ok (out, s2))
    (hassert : full = true ∨ s2 = some 0) :
    smith_waterman_alignment refL hypL sim dS iS eps full =
      Except.ok (out, some v) := by
  unfold smith_waterman_alignment
  rw [hmax]
  dsimp only
  rw [hloop]
  rcases hassert with h | h <;> simp [h]

theorem smith_waterman_inv (refL hypL : List Tok) (sim : Tok → Tok → Int)
    (dS iS : Int) (eps : Tok) (full : Bool) (out : List SWPair)
    (mx : Option Int)
    (h : smith_waterman_alignment refL hypL sim dS iS eps full =
      Except.ok (out, mx)) :
    ∃ s2, swLoop refL hypL sim dS iS eps full
        ((swMax refL hypL sim dS iS full).2.1 +
          (swMax refL hypL sim dS iS full).2.2 + 1)
        (swMax refL hypL sim dS iS full).2.1
        (swMax refL hypL sim dS iS full).2.2
        (swMax refL hypL sim dS iS full).1 [] = Except.ok (out, s2) ∧
      mx = (swMax refL hypL sim dS iS full).1 := by
  unfold smith_waterman_alignment at h
  rcases hsw : swLoop refL hypL sim dS iS eps full
      ((swMax refL hypL sim dS iS full).2.1 +
        (swMax refL hypL sim dS iS full).2.2 + 1)
      (swMax refL hypL sim dS iS full).2.1
      (swMax refL hypL sim dS iS full).2.2
      (swMax refL hypL sim dS iS full).1 [] with e | p
  · rw [hsw] at h
    exact absurd h (by simp)
  · obtain ⟨o, f⟩ := p
    rw [hsw] at h
    simp only at h
    split at h
    · exact absurd h (by simp)
    · injection h with h
      injection h with h1 h2
      subst h1
      subst h2
      exact ⟨f, rfl, rfl⟩

theorem swMax_le (refL hypL : List Tok) (sim : Tok → Tok → Int)
    (dS iS : Int) (full : Bool) :
    (swMax refL hypL sim dS iS full).2.1 ≤ refL.length ∧
    (swMax refL hypL sim dS iS full).2.2 ≤ hypL.length := by
  rcases swMax_inv refL hypL sim dS iS full with h | ⟨a, b, h1, h2, h3, h4,
    h5, -⟩
  · rw [h]; simp
  · rw [h5]; exact ⟨h2, h4⟩

/-- With an empty hypothesis or an empty reference the maximum search never
runs, the traceback never starts, and the function returns the empty
alignment with score `-inf` in full-hypothesis mode. -/
theorem smith_waterman_degenerate (refL hypL : List Tok)
    (sim : Tok → Tok → Int) (dS iS : Int) (eps : Tok)
    (h : refL = [] ∨ hypL = []) :
    smith_waterman_alignment refL hypL sim dS iS eps true =
      Except.ok ([], none) := by
  unfold smith_waterman_alignment
  rw [swMax_empty refL hypL sim dS iS true h]
  simp only
  rw [swLoop_exit refL hypL sim dS iS eps true 0 0 0 none [] (by simp)]
  rfl

/-- Shared characterisation of a full-hypothesis fixed-scoring alignment of
non-empty inputs. -/
theorem sw_full_fixed (refL hypL : List Tok) (eps : Tok)
    (hR : refL ≠ []) (hY : hypL ≠ []) :
    ∃ out v M,
      smith_waterman_alignment refL hypL similarity_fixed (-1) (-1) eps true =
        Except.ok (out, some v) ∧
      1 ≤ M ∧ M ≤ refL.length ∧
      covOK hypL.length out ∧ chainOK out ∧
      (∀ r ∈ out, r.ref_from ≤ M) ∧ out ≠ [] ∧
      (∃ x, (out.map (fun r => r.ref_from)).getLast? = some x ∧
        M - 1 ≤ x ∧ x ≤ M) := by
  obtain ⟨M, hM1, hM2, hmax⟩ :=
    swMax_full refL hypL similarity_fixed (-1) (-1) hR hY
  obtain ⟨L, s2, heq, hcov, hchain, hub, -, hlast⟩ :=
    swLoop_full_fixed refL hypL eps (M + hypL.length + 1) M hypL.length
      (some (swH refL hypL similarity_fixed (-1) (-1) true M hypL.length)) []
      (by omega) le_rfl
  rw [List.append_nil] at heq
  have hY1 : 1 ≤ hypL.length := List.length_pos.mpr hY
  obtain ⟨x, hx, hx1, hx2⟩ := hlast hY1
  have hne : L ≠ [] := by
    intro h
    rw [h] at hx
    simp at hx
  exact ⟨L, _, M,
    smith_waterman_eq_of refL hypL similarity_fixed (-1) (-1) eps true _ M
      hypL.length L s2 hmax heq (Or.inl rfl), hM1, hM2, hcov, hchain, hub,
    hne, ⟨x, hx, hx1, hx2⟩⟩

theorem Alignment_ofPair_refi (p : SWPair) :
    (Alignment.ofPair p).refi_from = p.ref_from := rfl

/-- Everything `padded_alignments` guarantees whenever it succeeds: the
result covers every reference position, and no `refi_from` exceeds
`len(ref)` (the value `len(ref)` itself can occur, carried by a trailing
insertion record of the raw alignment). -/
theorem padded_alignments_props (refL hypL : List Tok) (eps : Tok)
    (al : List Alignment)
    (h : padded_alignments refL hypL eps = Except.ok al) :
    (∀ i, i < refL.length → ∃ a ∈ al, a.refi_from = i) ∧
    (∀ a ∈ al, a.refi_from ≤ refL.length) := by
  have hR : refL ≠ [] := by
    intro h0
    rw [show padded_alignments refL hypL eps = Except.error "IndexError" from
      by
        unfold padded_alignments
        rw [smith_waterman_degenerate refL hypL similarity_fixed (-1) (-1)
          eps (Or.inl h0)]
        rfl] at h
    exact absurd h (by simp)
  have hY : hypL ≠ [] := by
    intro h0
    rw [show padded_alignments refL hypL eps = Except.error "IndexError" from
      by
        unfold padded_alignments
        rw [smith_waterman_degenerate refL hypL similarity_fixed (-1) (-1)
          eps (Or.inr h0)]
        rfl] at h
    exact absurd h (by simp)
  obtain ⟨out, v, M, hsw, hM1, hM2, hcov, hchain, hub, hne, x, hx, hx1, hx2⟩ :=
    sw_full_fixed refL hypL eps hR hY
  unfold padded_alignments at h
  rw [hsw] at h
  simp only at h
  obtain ⟨a0, rest, hout⟩ : ∃ a0 rest, out.map Alignment.ofPair = a0 :: rest := by
    rcases hmap : out.map Alignment.ofPair with _ | ⟨a0, rest⟩
    · exact absurd (List.map_eq_nil.mp hmap) hne
    · exact ⟨a0, rest, rfl⟩
  rw [hout] at h
  simp only at h
  injection h with h
  -- identify the three segments of the padded list
  have hmapfrom : (a0 :: rest).map (fun a => a.refi_from) =
      out.map (fun r => r.ref_from) := by
    rw [← hout, List.map_map]
    rfl
  subst h
  constructor
  · intro i hi
    by_cases hstart : i < a0.refi_from
    · -- left padding covers `i`
      refine ⟨⟨refL.getD i "", eps, i, 0, none, none⟩, ?_, rfl⟩
      refine List.mem_append.mpr (Or.inl (List.mem_append.mpr (Or.inl ?_)))
      exact List.mem_map.mpr ⟨i, List.mem_range.mpr hstart, rfl⟩
    · push_neg at hstart
      by_cases hend : i ≤ (rest.getLastD a0).refi_from
      · -- the aligner records cover `[start, end]` as an interval
        have hchain2 : List.Chain' (fun a b => a ≤ b ∧ b ≤ a + 1)
            (a0.refi_from :: rest.map (fun a => a.refi_from)) := by
          have : (a0 :: rest).map (fun a => a.refi_from) =
              a0.refi_from :: rest.map (fun a => a.refi_from) := rfl
          rw [← this, hmapfrom]
          exact hchain
        have hmem := chain_cover a0.refi_from
          (rest.map (fun a => a.refi_from)) hchain2 i hstart ?_
        · rcases List.mem_cons.mp hmem with hh | hh
          · exact ⟨a0, by simp, hh.symm⟩
          · obtain ⟨a, ha, haeq⟩ := List.mem_map.mp hh
            exact ⟨a, by simp [ha], haeq⟩
        · intro y hy
          have hlast2 : (a0.refi_from :: rest.map (fun a => a.refi_from)) =
              (a0 :: rest).map (fun a => a.refi_from) := rfl
          rw [hlast2, getLast?_map, List.getLast?_cons] at hy
          simp only [Option.map_some'] at hy
          injection hy with hy
          subst hy
          rw [List.getLastD_eq_getLast?] at hend
          exact hend
      · -- right padding covers `i`
        push_neg at hend
        refine ⟨⟨refL.getD i "", eps, i, hypL.length, none, none⟩, ?_, rfl⟩
        refine List.mem_append.mpr (Or.inr ?_)
        refine List.mem_map.mpr ⟨i, ?_, rfl⟩
        rw [List.mem_range'_1]
        omega
  · intro a ha
    rcases List.mem_append.mp ha with ha | ha
    · rcases List.mem_append.mp ha with ha | ha
      · obtain ⟨i, hi, rfl⟩ := List.mem_map.mp ha
        rw [List.mem_range] at hi
        -- i < start = a0.refi_from ≤ M ≤ len(ref)
        have : a0.refi_from ≤ M := by
          have : a0.refi_from ∈ out.map (fun r => r.ref_from) := by
            rw [← hmapfrom]; simp
          obtain ⟨r, hr, hre⟩ := List.mem_map.mp this
          exact hre ▸ hub r hr
        simp only
        omega
      · -- an aligner record
        obtain ⟨p, hp, rfl⟩ := List.mem_map.mp (hout ▸ ha)
        rw [Alignment_ofPair_refi]
        exact le_trans (hub p hp) hM2
    · obtain ⟨i, hi, rfl⟩ := List.mem_map.mp ha
      rw [List.mem_range'_1] at hi
      simp only
      omega

/-! ### The n-gram extractor -/

theorem mapM_eq_map {α β : Type} (l : List α) (f : α → Except String β)
    (g : α → β) (h : ∀ a ∈ l, f a = Except.ok (g a)) :
    l.mapM f = Except.ok (l.map g) := by
  induction l with
  | nil => rfl
  | cons a t ih =>
    rw [List.mapM_cons, h a (by simp)]
    rw [ih (fun x hx => h x (by simp [hx]))]
    rfl

/-- When the window's first bucket is non-empty, `ngram_tuple` succeeds and
returns `ngram_pair`. -/
theorem ngram_tuple_eq (ref_tok hyp_tok : List Tok)
    (alignments : List Alignment) (k o : Nat) (ho : 1 ≤ o)
    (hb : ri_to_alignment alignments k ≠ []) :
    ngram_tuple ref_tok hyp_tok alignments k o =
      Except.ok (ngram_pair ref_tok hyp_tok alignments k o) := by
  obtain ⟨o', rfl⟩ : ∃ o', o = o' + 1 := ⟨o - 1, by omega⟩
  have hsplit : (List.range' k (o' + 1)).flatMap (ri_to_alignment alignments) =
      ri_to_alignment alignments k ++
        (List.range' (k + 1) o').flatMap (ri_to_alignment alignments) := by
    rw [List.range'_succ]
    simp [List.flatMap]
  obtain ⟨b, bs, hbs⟩ : ∃ b bs, ri_to_alignment alignments k = b :: bs := by
    rcases hcase : ri_to_alignment alignments k with _ | ⟨b, bs⟩
    · exact absurd hcase hb
    · exact ⟨b, bs, rfl⟩
  unfold ngram_tuple ngram_pair
  rw [hsplit, hbs]
  rfl

/-- Non-empty buckets from the coverage property. -/
theorem bucket_ne_nil (alignments : List Alignment) (i : Nat)
    (h : ∃ a ∈ alignments, a.refi_from = i) :
    ri_to_alignment alignments i ≠ [] := by
  obtain ⟨a, ha, hfrom⟩ := h
  have : a ∈ ri_to_alignment alignments i := by
    unfold ri_to_alignment
    rw [List.mem_filter]
    exact ⟨ha, by simp [hfrom]⟩
  exact List.ne_nil_of_mem this

/-- `calc_aligned_ngram_tuples` on a successfully padded alignment is the
plain double loop: orders `1..K` outermost, window starts
`0..len(ref)-o` innermost, one `ngram_pair` per `(o, k)`. -/
theorem calc_aligned_eq (refL hypL : List Tok) (al : List Alignment) (K : Nat)
    (hpad : padded_alignments refL hypL "|" = Except.ok al) :
    calc_aligned_ngram_tuples refL hypL K =
      Except.ok
        (((List.range' 1 K).flatMap
            (fun o =>
              (List.range (refL.length - (o - 1))).map (fun k => (o, k)))).map
          (fun p => ngram_pair refL hypL al p.2 p.1)) := by
  have hprops := padded_alignments_props refL hypL "|" al hpad
  unfold calc_aligned_ngram_tuples
  rw [hpad]
  apply mapM_eq_map
  intro p hp
  obtain ⟨o, ho, k, hk, rfl⟩ :
      ∃ o, o ∈ List.range' 1 K ∧ ∃ k, k ∈ List.range (refL.length - (o - 1)) ∧
        (o, k) = p := by
    obtain ⟨o, ho, hmem⟩ := List.mem_flatMap.mp hp
    obtain ⟨k, hk, hkp⟩ := List.mem_map.mp hmem
    exact ⟨o, ho, k, hk, hkp⟩
  rw [List.mem_range'_1] at ho
  rw [List.mem_range] at hk
  apply ngram_tuple_eq _ _ _ _ _ (by omega)
  apply bucket_ne_nil
  exact hprops.1 k (by omega)

/-! ### Claim theorems -/

/-- C2 counterexample: on `ref = ["a","b"]`, `hyp = []`, full-hypothesis mode
with the fixed scoring, the code returns the empty record list with score
`-inf` (`none`) — not two deletion records with score `2 * del_score`. -/
theorem c2_empty_hyp_counterexample :
    smith_waterman_alignment ["a", "b"] [] similarity_fixed (-1) (-1) "|"
      true = Except.ok ([], none) ∧
    ∀ out mx,
      smith_waterman_alignment ["a", "b"] [] similarity_fixed (-1) (-1) "|"
        true = Except.ok (out, mx) →
      ¬(out.length = 2 ∧ mx = some (2 * (-1))) := by
  have hfirst : smith_waterman_alignment ["a", "b"] [] similarity_fixed
      (-1) (-1) "|" true = Except.ok ([], none) := by rfl
  refine ⟨hfirst, ?_⟩
  rintro out mx h ⟨hlen, hmx⟩
  rw [hfirst] at h
  injection h with h
  injection h with h1 h2
  rw [← h1] at hlen
  exact absurd hlen (by simp)

/-- C2 (amended): an empty hypothesis against any reference — or an empty
reference against any hypothesis — makes `smith_waterman_alignment` in
full-hypothesis mode return the *empty* alignment without crashing; its score
is the untouched `-inf` maximum (`none`), no deletion or insertion records
are produced (any scoring configuration). -/
theorem c2_degenerate_inputs (sim : Tok → Tok → Int) (dS iS : Int)
    (eps : Tok) :
    (∀ refL : List Tok,
      smith_waterman_alignment refL [] sim dS iS eps true =
        Except.ok ([], none)) ∧
    (∀ hypL : List Tok,
      smith_waterman_alignment [] hypL sim dS iS eps true =
        Except.ok ([], none)) :=
  ⟨fun refL =>
      smith_waterman_degenerate refL [] sim dS iS eps (Or.inr rfl),
    fun hypL =>
      smith_waterman_degenerate [] hypL sim dS iS eps (Or.inl rfl)⟩

/-- C3 counterexample: the claim says `H[m][0] = -(len(hyp)+2)` for `m > 0`
in full-hypothesis mode; the code sets `H[ref_index][0] = 0` for every row
(`-(len(hyp)+2)` is only the pre-recurrence fill of the columns `n ≥ 1`).
At `ref = ["a"]`, `hyp = ["b"]`, `m = 1` the matrix holds `0`, not `-3`. -/
theorem c3_col0_counterexample :
    swH ["a"] ["b"] similarity_fixed (-1) (-1) true 1 0 = 0 ∧
    ¬(swH ["a"] ["b"] similarity_fixed (-1) (-1) true 1 0 =
      -(((["b"] : List Tok).length : Int) + 2)) := by
  decide

/-- C3 (amended): in full-hypothesis mode the initialisation is
`H[0][0] = 0`, `H[m][0] = 0` for every `m` (the `-(len(hyp)+2)` fill applies
only to the interior columns before the recurrence), and
`H[0][n] = H[0][n-1] + ins_score` with backpointer `(0, n-1)` for
`1 ≤ n ≤ len(hyp)`. -/
theorem c3_initialization (refL hypL : List Tok) (sim : Tok → Tok → Int)
    (dS iS : Int) :
    swH refL hypL sim dS iS true 0 0 = 0 ∧
    (∀ m, swH refL hypL sim dS iS true m 0 = 0) ∧
    (∀ n, 1 ≤ n → n ≤ hypL.length →
      swH refL hypL sim dS iS true 0 n =
        swH refL hypL sim dS iS true 0 (n - 1) + iS ∧
      swBP refL hypL sim dS iS true 0 n = (0, n - 1)) := by
  refine ⟨rfl, fun m => swH_col0 .., ?_⟩
  intro n hn _
  obtain ⟨n', rfl⟩ : ∃ n', n = n' + 1 := ⟨n - 1, by omega⟩
  exact ⟨by rw [swH_row0_step]; rfl, by simp [swBP_row0]⟩

/-- C3 witness: the amended initialisation facts evaluated at
`ref = ["a"]`, `hyp = ["b"]`, `n = 1`. -/
theorem c3_initialization_witness :
    swH ["a"] ["b"] similarity_fixed (-1) (-1) true 0 1 =
      swH ["a"] ["b"] similarity_fixed (-1) (-1) true 0 0 + (-1) ∧
    swBP ["a"] ["b"] similarity_fixed (-1) (-1) true 0 1 = (0, 0) :=
  (c3_initialization ["a"] ["b"] similarity_fixed (-1) (-1)).2.2 1
    (by decide) (by decide)

/-- C9: `align_and_calc_edit_types(["a","b","c"], ["a","x","c"])` is
`[cor, sub, cor]`, and `get_edit_type` classifies a pair as `cor` when the
tokens agree, `sub` when they differ and neither is the sentinel, `ins` when
the reference side is the sentinel, `del` when the hypothesis side is. -/
theorem c9_edit_types :
    align_and_calc_edit_types ["a", "b", "c"] ["a", "x", "c"] =
      Except.ok ["cor", "sub", "cor"] ∧
    ∀ r h e : Tok,
      (r = h → get_edit_type r h e = "cor") ∧
      (r ≠ h → r ≠ e → h ≠ e → get_edit_type r h e = "sub") ∧
      (r ≠ h → r = e → get_edit_type r h e = "ins") ∧
      (r ≠ h → h = e → get_edit_type r h e = "del") := by
  constructor
  · rfl
  · intro r h e
    refine ⟨?_, ?_, ?_, ?_⟩
    · intro hrh
      subst hrh
      unfold get_edit_type
      simp
    · intro h1 h2 h3
      unfold get_edit_type
      rw [if_pos ⟨h1, fun hc => hc.elim h2 h3⟩]
    · intro h1 h2
      unfold get_edit_type
      rw [if_neg (fun hc => hc.2 (Or.inl h2)), if_pos ⟨h1, h2⟩]
    · intro h1 h2
      have hre : r ≠ e := fun hr => h1 (hr.trans h2.symm)
      unfold get_edit_type
      rw [if_neg (fun hc => hc.2 (Or.inr h2)),
        if_neg (fun hc => hre hc.2), if_pos ⟨h1, h2⟩]

/-- C9 witness: the four classification cases of `get_edit_type` evaluated
at concrete tokens. -/
theorem c9_edit_types_witness :
    get_edit_type "a" "a" "|" = "cor" ∧ get_edit_type "a" "b" "|" = "sub" ∧
    get_edit_type "|" "b" "|" = "ins" ∧ get_edit_type "a" "|" "|" = "del" :=
  ⟨((c9_edit_types.2 "a" "a" "|").1) rfl,
   ((c9_edit_types.2 "a" "b" "|").2.1) (by decide) (by decide) (by decide),
   ((c9_edit_types.2 "|" "b" "|").2.2.1) (by decide) rfl,
   ((c9_edit_types.2 "a" "|" "|").2.2.2) (by decide) rfl⟩

/-- C10: whenever the aligner returns an empty record list (as it does for
an empty hypothesis in full-hypothesis mode), `padded_alignments` hits its
unguarded `alignments[0]` and raises `IndexError`. -/
theorem c10_padded_empty_output (refL hypL : List Tok) (eps : Tok)
    (mx : Option Int)
    (h : smith_waterman_alignment refL hypL similarity_fixed (-1) (-1) eps
      true = Except.ok ([], mx)) :
    padded_alignments refL hypL eps = Except.error "IndexError" := by
  unfold padded_alignments
  rw [h]
  rfl

/-- C10 witness: the `IndexError` at the concrete input
`ref = ["a","b"]`, `hyp = []`. -/
theorem c10_padded_empty_output_witness :
    padded_alignments ["a", "b"] [] "|" = Except.error "IndexError" :=
  c10_padded_empty_output ["a", "b"] [] "|" none (by rfl)

theorem mem_bucket_refi (al : List Alignment) (i : Nat) (a : Alignment)
    (h : a ∈ ri_to_alignment al i) : a.refi_from = i := by
  unfold ri_to_alignment at h
  rw [List.mem_filter] at h
  simpa using h.2

theorem getLastD_mem_cons {α : Type} (l : List α) (a : α) :
    l.getLastD a ∈ a :: l := by
  induction l generalizing a with
  | nil => simp
  | cons x xs ih =>
    rw [List.getLastD_cons]
    exact List.mem_cons_of_mem a (ih x)

/-- C1 counterexample: with a degenerate scoring configuration
(`sim ≡ 0`, `del_score = ins_score = 0`) the base-case break fires at a cell
with score `0` and emits nothing, so hypothesis index `0` is never covered:
the claim fails as stated for general scoring. -/
theorem c1_coverage_counterexample :
    smith_waterman_alignment ["a"] ["a", "a"] (fun _ _ => 0) 0 0 "|" true =
      Except.ok ([⟨"a", "a", 0, 1, 1, 2⟩], some 0) ∧
    ¬((([⟨"a", "a", 0, 1, 1, 2⟩] : List SWPair).filter
        (fun r => r.hyp_to == r.hyp_from + 1)).map (fun r => r.hyp_from) =
      List.range (["a", "a"] : List Tok).length) := by
  constructor
  · rfl
  · decide

/-- C1 (amended): under the repository's fixed scoring (match +2,
mismatch/del/ins -1, the configuration every in-repository caller uses),
the full-hypothesis alignment of non-empty inputs succeeds, its
hypothesis-consuming records cover the hypothesis indices `0..len(hyp)-1`
exactly once and in order, and the `ref_from` indices are monotonically
non-decreasing in output order. -/
theorem c1_full_hyp_coverage (refL hypL : List Tok) (eps : Tok)
    (hR : refL ≠ []) (hY : hypL ≠ []) :
    ∃ out v,
      smith_waterman_alignment refL hypL similarity_fixed (-1) (-1) eps true =
        Except.ok (out, some v) ∧
      covOK hypL.length out ∧
      List.Pairwise (· ≤ ·) (out.map (fun r => r.ref_from)) := by
  obtain ⟨out, v, M, hsw, -, -, hcov, hchain, -, -, -⟩ :=
    sw_full_fixed refL hypL eps hR hY
  refine ⟨out, v, hsw, hcov, ?_⟩
  exact List.chain'_iff_pairwise.mp
    (List.Chain'.imp (fun a b hab => hab.1) hchain)

/-- C1 witness: the amended coverage statement evaluated at
`ref = ["a"]`, `hyp = ["b"]`. -/
theorem c1_full_hyp_coverage_witness :
    ∃ out v,
      smith_waterman_alignment ["a"] ["b"] similarity_fixed (-1) (-1) "|"
        true = Except.ok (out, some v) ∧
      covOK (["b"] : List Tok).length out ∧
      List.Pairwise (· ≤ ·) (out.map (fun r => r.ref_from)) :=
  c1_full_hyp_coverage ["a"] ["b"] "|" (by decide) (by decide)

/-- C4: aligning any non-empty sequence against itself with the fixed
scoring classifies every pair as `cor`, and the returned score is
`2 * len(ref)`. -/
theorem c4_identical_sequences (refL : List Tok) (hR : refL ≠ []) :
    ∃ ets out,
      align_and_calc_edit_types refL refL = Except.ok ets ∧
      (∀ e ∈ ets, e = "cor") ∧
      smith_waterman_alignment refL refL similarity_fixed (-1) (-1) "|" true =
        Except.ok (out, some (2 * (refL.length : Int))) := by
  have hL1 : 1 ≤ refL.length := List.length_pos.mpr hR
  have hmax := swMax_diag refL hR
  have hloop := swLoop_diag_trace refL "|" refL.length hL1 le_rfl
    (refL.length + refL.length + 1) (by omega)
    (some (2 * (refL.length : Int))) []
  rw [List.append_nil] at hloop
  have hsw := smith_waterman_eq_of refL refL similarity_fixed (-1) (-1) "|"
    true (2 * (refL.length : Int)) refL.length refL.length
    (diagL refL refL.length) (some 0) hmax hloop (Or.inl rfl)
  refine ⟨(diagL refL refL.length).map
    (fun p => get_edit_type p.ref_word p.hyp_word "|"),
    diagL refL refL.length, ?_, ?_, hsw⟩
  · unfold align_and_calc_edit_types
    rw [hsw]
  · intro e he
    obtain ⟨p, hp, rfl⟩ := List.mem_map.mp he
    obtain ⟨j, hj, rfl⟩ := List.mem_map.mp hp
    unfold get_edit_type
    simp

/-- C4 witness: the identical-sequence property evaluated at
`ref = hyp = ["a","b"]`. -/
theorem c4_identical_sequences_witness :
    ∃ ets out,
      align_and_calc_edit_types ["a", "b"] ["a", "b"] = Except.ok ets ∧
      (∀ e ∈ ets, e = "cor") ∧
      smith_waterman_alignment ["a", "b"] ["a", "b"] similarity_fixed (-1)
        (-1) "|" true =
        Except.ok (out, some (2 * ((["a", "b"] : List Tok).length : Int))) :=
  c4_identical_sequences ["a", "b"] (by decide)

/-- C5 counterexample: at `ref = ["a"]`, `hyp = ["b","a","b"]` the padded
alignment carries a record with `refi_from = 1 = len(ref)` (from a trailing
insertion at the last reference row), so the `refi_from` set is not
`{0, ..., len(ref)-1}` exactly. -/
theorem c5_out_of_range_counterexample :
    padded_alignments ["a"] ["b", "a", "b"] "|" =
      Except.ok
        [⟨"|", "b", 0, 0, some 0, some 1⟩,
         ⟨"a", "a", 0, 1, some 1, some 2⟩,
         ⟨"|", "b", 1, 2, some 1, some 3⟩] ∧
    ∃ a ∈ ([⟨"|", "b", 0, 0, some 0, some 1⟩,
         ⟨"a", "a", 0, 1, some 1, some 2⟩,
         ⟨"|", "b", 1, 2, some 1, some 3⟩] : List Alignment),
      ¬(a.refi_from < (["a"] : List Tok).length) := by
  constructor
  · rfl
  · decide

/-- C5 (amended): whenever `padded_alignments` succeeds (it raises
`IndexError` when the aligner output is empty, e.g. on an empty input),
every reference position `0..len(ref)-1` occurs among the `refi_from`
values — so every bucket is non-empty — and every `refi_from` is at most
`len(ref)` (the value `len(ref)` itself can occur, via trailing insertion
records). -/
theorem c5_padded_coverage (refL hypL : List Tok) (eps : Tok)
    (al : List Alignment)
    (h : padded_alignments refL hypL eps = Except.ok al) :
    (∀ i, i < refL.length → ∃ a ∈ al, a.refi_from = i) ∧
    (∀ a ∈ al, a.refi_from ≤ refL.length) ∧
    (∀ i, i < refL.length → ri_to_alignment al i ≠ []) := by
  have hp := padded_alignments_props refL hypL eps al h
  exact ⟨hp.1, hp.2, fun i hi => bucket_ne_nil al i (hp.1 i hi)⟩

/-- C5 witness: the amended coverage statement evaluated at
`ref = hyp = ["a"]`. -/
theorem c5_padded_coverage_witness :
    (∀ i, i < (["a"] : List Tok).length →
      ∃ a ∈ ([⟨"a", "a", 0, 0, some 1, some 1⟩] : List Alignment),
        a.refi_from = i) ∧
    (∀ a ∈ ([⟨"a", "a", 0, 0, some 1, some 1⟩] : List Alignment),
      a.refi_from ≤ (["a"] : List Tok).length) ∧
    (∀ i, i < (["a"] : List Tok).length →
      ri_to_alignment [⟨"a", "a", 0, 0, some 1, some 1⟩] i ≠ []) :=
  c5_padded_coverage ["a"] ["a"] "|" [⟨"a", "a", 0, 0, some 1, some 1⟩]
    (by rfl)

/-- C6 counterexample: `calc_aligned_ngram_tuples(["a"], [], 1)` does not
yield one pair per reference position — it propagates the `IndexError` of
`padded_alignments`. -/
theorem c6_crash_counterexample :
    calc_aligned_ngram_tuples ["a"] [] 1 = Except.error "IndexError" := by
  rfl

/-- C6 (amended): whenever the padded alignment exists, the n-gram
generator emits, in order of increasing order `o` then increasing window
start `k`, the `ngram_pair` of each `(o, k)`; for order 1 this is exactly
one pair per reference position, in increasing position order, and the
reference n-gram of position `k` is `ref[k:k+1]`. -/
theorem c6_ngram_emission (refL hypL : List Tok) (K : Nat)
    (al : List Alignment)
    (hpad : padded_alignments refL hypL "|" = Except.ok al) :
    calc_aligned_ngram_tuples refL hypL K =
      Except.ok
        (((List.range' 1 K).flatMap
            (fun o =>
              (List.range (refL.length - (o - 1))).map (fun k => (o, k)))).map
          (fun p => ngram_pair refL hypL al p.2 p.1)) ∧
    calc_aligned_ngram_tuples refL hypL 1 =
      Except.ok
        ((List.range refL.length).map
          (fun k => ngram_pair refL hypL al k 1)) ∧
    ((List.range refL.length).map
      (fun k => ngram_pair refL hypL al k 1)).length = refL.length ∧
    (∀ k, k < refL.length →
      (ngram_pair refL hypL al k 1).2 = (refL.drop k).take 1) := by
  have hprops := padded_alignments_props refL hypL "|" al hpad
  refine ⟨calc_aligned_eq refL hypL al K hpad, ?_, by simp, ?_⟩
  · rw [calc_aligned_eq refL hypL al 1 hpad]
    congr 1
    rw [show List.range' 1 1 = [1] from rfl]
    simp [List.map_map]
  · intro k hk
    obtain ⟨b, bs, hbs⟩ : ∃ b bs, ri_to_alignment al k = b :: bs := by
      rcases hcase : ri_to_alignment al k with _ | ⟨b, bs⟩
      · exact absurd hcase (bucket_ne_nil al k (hprops.1 k hk))
      · exact ⟨b, bs, rfl⟩
    have hflat : (List.range' k 1).flatMap (ri_to_alignment al) = b :: bs := by
      rw [show List.range' k 1 = [k] from rfl]
      simp [List.flatMap, hbs]
    have hb : b.refi_from = k := mem_bucket_refi al k b (by simp [hbs])
    have hlastb : (bs.getLastD b).refi_from = k :=
      mem_bucket_refi al k _ (by rw [hbs]; exact getLastD_mem_cons bs b)
    unfold ngram_pair
    rw [hflat]
    simp only [hb, hlastb]
    congr 1
    omega

/-- C6 witness: the emission characterisation evaluated at
`ref = hyp = ["a"]`, order 1. -/
theorem c6_ngram_emission_witness :
    calc_aligned_ngram_tuples ["a"] ["a"] 1 =
      Except.ok
        (((List.range' 1 1).flatMap
            (fun o =>
              (List.range ((["a"] : List Tok).length - (o - 1))).map
                (fun k => (o, k)))).map
          (fun p => ngram_pair ["a"] ["a"]
            [⟨"a", "a", 0, 0, some 1, some 1⟩] p.2 p.1)) :=
  (c6_ngram_emission ["a"] ["a"] 1 [⟨"a", "a", 0, 0, some 1, some 1⟩]
    (by rfl)).1

/-- C7 counterexample: in local mode with an empty hypothesis the maximum
stays `-inf`, the traceback loop never runs, and the final
`assert score == 0` fails — the code crashes rather than exiting with score
`0`. -/
theorem c7_local_empty_counterexample :
    smith_waterman_alignment ["a"] [] similarity_fixed (-1) (-1) "|" false =
      Except.error "AssertionError" := by
  rfl

/-- C7 (amended): in local mode with non-empty inputs (any scoring), the
traceback loop exits with running score exactly `0`, so the final
`assert score == 0` never fails and the call returns normally. -/
theorem c7_local_exit_score (refL hypL : List Tok) (sim : Tok → Tok → Int)
    (dS iS : Int) (eps : Tok) (hR : refL ≠ []) (hY : hypL ≠ []) :
    ∃ M N v out,
      swMax refL hypL sim dS iS false = (some v, M, N) ∧
      swLoop refL hypL sim dS iS eps false (M + N + 1) M N (some v) [] =
        Except.ok (out, some 0) ∧
      smith_waterman_alignment refL hypL sim dS iS eps false =
        Except.ok (out, some v) := by
  obtain ⟨a, b, h1, h2, h3, h4, hmax⟩ :=
    swMax_local refL hypL sim dS iS hR hY
  have hv : 0 ≤ swH refL hypL sim dS iS false a b := swH_local_nonneg ..
  obtain ⟨L, hL⟩ := swLoop_local_zero refL hypL sim dS iS eps (a + b + 1) a b
    (swH refL hypL sim dS iS false a b) [] (by omega) hv
  rw [List.append_nil] at hL
  exact ⟨a, b, _, L, hmax, hL,
    smith_waterman_eq_of refL hypL sim dS iS eps false _ a b L (some 0) hmax
      hL (Or.inr rfl)⟩

/-- C7 witness: the local-mode exit property evaluated at
`ref = ["a"]`, `hyp = ["b"]` with the fixed scoring. -/
theorem c7_local_exit_score_witness :
    ∃ M N v out,
      swMax ["a"] ["b"] similarity_fixed (-1) (-1) false = (some v, M, N) ∧
      swLoop ["a"] ["b"] similarity_fixed (-1) (-1) "|" false (M + N + 1) M N
        (some v) [] = Except.ok (out, some 0) ∧
      smith_waterman_alignment ["a"] ["b"] similarity_fixed (-1) (-1) "|"
        false = Except.ok (out, some v) :=
  c7_local_exit_score ["a"] ["b"] similarity_fixed (-1) (-1) "|" (by decide)
    (by decide)

/-- C8: provided the sentinel is distinct from all tokens (the data model's
standing assumption), no record ever returned by `smith_waterman_alignment`
has the sentinel in both slots — each record is a match/substitution (no
sentinel), a deletion (sentinel on the hypothesis side only), or an
insertion (sentinel on the reference side only); any scoring, both modes. -/
theorem c8_no_double_eps (refL hypL : List Tok) (sim : Tok → Tok → Int)
    (dS iS : Int) (eps : Tok) (full : Bool) (out : List SWPair)
    (mx : Option Int) (heR : eps ∉ refL) (heY : eps ∉ hypL)
    (h : smith_waterman_alignment refL hypL sim dS iS eps full =
      Except.ok (out, mx)) :
    ∀ r ∈ out, ¬(r.ref_word = eps ∧ r.hyp_word = eps) := by
  obtain ⟨s2, hloop, -⟩ :=
    smith_waterman_inv refL hypL sim dS iS eps full out mx h
  have hb := swMax_le refL hypL sim dS iS full
  have hgood := swLoop_no_eps_eps refL hypL sim dS iS eps full heR heY _ _ _
    _ [] out s2 hb.1 hb.2 hloop
  intro r hr
  rcases hgood r hr with h | h
  · exact absurd h (by simp)
  · exact h

/-- C8 witness: the at-most-one-sentinel property evaluated at
`ref = ["a"]`, `hyp = ["b"]`, sentinel `"|"`, full-hypothesis mode. -/
theorem c8_no_double_eps_witness :
    ¬((⟨"a", "b", 0, 0, 1, 1⟩ : SWPair).ref_word = "|" ∧
      (⟨"a", "b", 0, 0, 1, 1⟩ : SWPair).hyp_word = "|") :=
  c8_no_double_eps ["a"] ["b"] similarity_fixed (-1) (-1) "|" true
    [⟨"a", "b", 0, 0, 1, 1⟩] (some (-1)) (by decide) (by decide) (by rfl)
    ⟨"a", "b", 0, 0, 1, 1⟩ (by simp)

end alignment
